import Mathlib

/-!
Verification of the gosoup HTML query library against its specification.

The development shallowly embeds the library's data model and operations:

* `NType` / `HNode` — the underlying parse-tree nodes (`html.Node` of
  `golang.org/x/net/html`), as an inductive tree carrying a node identity
  (`id`, standing for the node's pointer), its kind, tag name / text data,
  attribute list and children.
* `Tag` and the predicate combinators — `predicate.go`.
* `Tag.Find` / `Tag.FindAll` / `Tag.FindParent` / parsing — `tag.go`.
* `PNode` / `Store` — the same nodes viewed as a mutable pointer graph
  (parent / first-child / last-child / prev- / next-sibling links), used for
  the mutating operation `Unwrap`, with `describes` relating a pointer store
  to an inductive tree.
* `Doc` / `World` — `document.go`: the per-document node-to-handle cache,
  with an allocation counter modelling Go heap pointer identity of `*Tag`.
-/

namespace Gosoup

/-- Node kinds of `golang.org/x/net/html` (`html.NodeType`). -/
inductive NType where
  | errorN | textN | documentN | elementN | commentN | doctypeN | rawN
  deriving DecidableEq, Repr

/-- An underlying parse-tree node (`html.Node`), viewed as an inductive tree.
`id` models the node's pointer identity; `data` is the tag name for element
nodes and the raw text for text nodes; `attr` is the ordered attribute list. -/
inductive HNode where
  | mk (id : Nat) (ntype : NType) (data : String)
       (attr : List (String × String)) (children : List HNode)
  deriving Repr

def HNode.id : HNode → Nat
  | .mk i _ _ _ _ => i

def HNode.ntype : HNode → NType
  | .mk _ t _ _ _ => t

def HNode.data : HNode → String
  | .mk _ _ d _ _ => d

def HNode.attr : HNode → List (String × String)
  | .mk _ _ _ a _ => a

def HNode.children : HNode → List HNode
  | .mk _ _ _ _ cs => cs

theorem HNode.sizeOf_lt_of_mem {c : HNode} {cs : List HNode} (h : c ∈ cs) :
    sizeOf c < sizeOf cs := List.sizeOf_lt_of_mem h

/-- Structural induction principle for `HNode` (the automatic one has a
separate motive for the nested `List HNode`). -/
@[induction_eliminator]
theorem HNode.my_ind (P : HNode → Prop)
    (h : ∀ i ty d a cs, (∀ c ∈ cs, P c) → P (.mk i ty d a cs)) : ∀ t, P t := by
  intro t
  generalize hn : sizeOf t = n
  induction n using Nat.strong_induction_on generalizing t with
  | _ n ih =>
    cases t with
    | mk i ty d a cs =>
      apply h
      intro c hc
      apply ih (sizeOf c) _ c rfl
      subst hn
      have := HNode.sizeOf_lt_of_mem hc
      simp only [HNode.mk.sizeOf_spec]
      omega

theorem sizeOf_children_lt (n : HNode) : sizeOf n.children < sizeOf n := by
  cases n with
  | mk i ty d a cs => simp [HNode.children]

mutual
/-- Identities of all nodes of a subtree, in pre-order. -/
def allIds : HNode → List Nat
  | .mk i _ _ _ cs => i :: allIdsL cs

def allIdsL : List HNode → List Nat
  | [] => []
  | c :: cs => allIds c ++ allIdsL cs
end

mutual
/-- All nodes of a subtree (the node itself first, then its descendants),
in pre-order document order. -/
def subNodes : HNode → List HNode
  | .mk i ty d a cs => .mk i ty d a cs :: subNodesL cs

def subNodesL : List HNode → List HNode
  | [] => []
  | c :: cs => subNodes c ++ subNodesL cs
end

theorem allIds_def (n : HNode) : allIds n = n.id :: allIdsL n.children := by
  cases n with
  | mk i ty d a cs => rfl

theorem subNodes_def (n : HNode) : subNodes n = n :: subNodesL n.children := by
  cases n with
  | mk i ty d a cs => rfl

mutual
theorem allIds_eq_map_subNodes (n : HNode) : allIds n = (subNodes n).map HNode.id := by
  cases n with
  | mk i ty d a cs =>
    simp only [allIds, subNodes, List.map_cons]
    exact congrArg _ (allIdsL_eq_map_subNodesL cs)

theorem allIdsL_eq_map_subNodesL (l : List HNode) :
    allIdsL l = (subNodesL l).map HNode.id := by
  match l with
  | [] => rfl
  | c :: cs =>
    simp only [allIdsL, subNodesL, List.map_append]
    exact congrArg₂ _ (allIds_eq_map_subNodes c) (allIdsL_eq_map_subNodesL cs)
end

/-- Lookup in a Go `map[string]string` built as an association list. -/
def mapGet (m : List (String × String)) (k : String) : Option String :=
  (m.find? (fun e => e.1 == k)).map (fun e => e.2)

/-- Insertion into a Go `map[string]string`: overwrite an existing key,
otherwise append. -/
def mapInsert (m : List (String × String)) (k v : String) : List (String × String) :=
  if (m.find? (fun e => e.1 == k)).isSome then
    m.map (fun e => if e.1 == k then (k, v) else e)
  else m ++ [(k, v)]

/-- The attribute map a `Tag` snapshots from a node's attribute list
(`for _, attr := range node.Attr { attrs[attr.Key] = attr.Val }`). -/
def goAttrs (l : List (String × String)) : List (String × String) :=
  l.foldl (fun m kv => mapInsert m kv.1 kv.2) []

/-- The handle type of the library (`Tag` of `tag.go`): a name, a snapshot of
the attributes, and a reference to the underlying node. The node-reference
type is a parameter so the same record serves the tree view (`ν := HNode`)
used by the search engine. -/
structure Tag (ν : Type) where
  Name : String
  Attrs : List (String × String)
  node : ν
  deriving Repr

/-- A search predicate (`predicate.go`): a boolean function on handles. -/
abbrev Predicate (ν : Type) := Tag ν → Bool

def HasName {ν : Type} (name : String) : Predicate ν :=
  fun tag => tag.Name == name

def HasAttr {ν : Type} (attr : String) : Predicate ν :=
  fun tag => (mapGet tag.Attrs attr).isSome

def HasNoAttr {ν : Type} (attr : String) : Predicate ν :=
  fun tag => !(mapGet tag.Attrs attr).isSome

/-- Splitting a character list on single space characters, modelling Go's
`strings.Split(s, " ")`: the result is the list of (possibly empty) maximal
separator-free substrings. -/
def splitChars : List Char → List String
  | [] => [""]
  | c :: cs =>
    if c = ' ' then "" :: splitChars cs
    else
      match splitChars cs with
      | [] => [String.mk [c]]
      | h :: t => String.mk (c :: h.data) :: t

/-- Go's `strings.Split(s, " ")`. -/
def splitSpaces (s : String) : List String := splitChars s.data

/-- Joining with single spaces, the inverse of `splitChars`. -/
def joinSp : List (List Char) → List Char
  | [] => []
  | [x] => x
  | x :: y :: ys => x ++ ' ' :: joinSp (y :: ys)

theorem splitChars_ne_nil (l : List Char) : splitChars l ≠ [] := by
  induction l with
  | nil => simp [splitChars]
  | cons c cs ih =>
    unfold splitChars
    by_cases hc : c = ' '
    · simp [hc]
    · simp only [hc, if_false]
      cases h : splitChars cs with
      | nil => simp
      | cons h t => simp

/-- Joining the pieces of `splitChars` with single spaces restores the input:
`splitChars` is a genuine single-space split. -/
theorem joinSp_splitChars (l : List Char) :
    joinSp ((splitChars l).map String.data) = l := by
  induction l with
  | nil => simp [splitChars, joinSp]
  | cons c cs ih =>
    unfold splitChars
    by_cases hc : c = ' '
    · simp only [hc, if_true]
      cases h : splitChars cs with
      | nil => exact absurd h (splitChars_ne_nil cs)
      | cons x t =>
        rw [h] at ih
        simp only [List.map_cons, joinSp] at ih ⊢
        simp only [List.nil_append]
        rw [ih]
    · simp only [hc, if_false]
      cases h : splitChars cs with
      | nil => exact absurd h (splitChars_ne_nil cs)
      | cons x t =>
        rw [h] at ih
        simp only [List.map_cons] at ih ⊢
        cases t with
        | nil =>
          simp only [joinSp] at ih ⊢
          simp [ih]
        | cons y ys =>
          simp only [joinSp, List.map_cons] at ih ⊢
          rw [← ih]
          simp

/-- No piece produced by `splitChars` contains a space. -/
theorem splitChars_no_space (l : List Char) :
    ∀ tok ∈ splitChars l, ' ' ∉ tok.data := by
  induction l with
  | nil => simp [splitChars]
  | cons c cs ih =>
    unfold splitChars
    by_cases hc : c = ' '
    · simp only [hc, if_true]
      intro tok htok
      rcases List.mem_cons.mp htok with h | h
      · subst h; simp
      · exact ih tok h
    · simp only [hc, if_false]
      cases h : splitChars cs with
      | nil => exact absurd h (splitChars_ne_nil cs)
      | cons x t =>
        intro tok htok
        rcases List.mem_cons.mp htok with hh | hh
        · subst hh
          intro hsp
          rcases List.mem_cons.mp hsp with h1 | h1
          · exact hc h1.symm
          · exact ih x (h ▸ List.mem_cons_self x t) h1
        · exact ih tok (h ▸ List.mem_cons_of_mem x hh)

def HasClass {ν : Type} (cls : String) : Predicate ν :=
  fun tag =>
    match mapGet tag.Attrs "class" with
    | none => false
    | some tagClass => (splitSpaces tagClass).contains cls

def HasNoClass {ν : Type} : Predicate ν :=
  fun tag => HasNoAttr "class" tag

def AttrEq {ν : Type} (attr value : String) : Predicate ν :=
  fun tag =>
    match mapGet tag.Attrs attr with
    | some tagAttr => tagAttr == value
    | none => false

def All {ν : Type} (predicates : List (Predicate ν)) : Predicate ν :=
  fun tag => predicates.all (fun predicate => predicate tag)

def Any {ν : Type} (predicates : List (Predicate ν)) : Predicate ν :=
  fun tag => predicates.any (fun predicate => predicate tag)

/-- A concrete handle used to instantiate theorems with hypotheses. -/
def tagAB : Tag HNode :=
  ⟨"p", [("class", "a b")], .mk 0 .elementN "p" [("class", "a b")] []⟩

/-- A concrete handle with no class attribute. -/
def tagNoClass : Tag HNode :=
  ⟨"p", [("id", "x")], .mk 0 .elementN "p" [("id", "x")] []⟩

/-- C6: the predicate combinator algebra. `All` of no predicates holds on
every handle, `Any` of no predicates holds on no handle, and on a single
predicate both combinators coincide with that predicate. -/
theorem claim_C6_predicate_algebra {ν : Type} (p : Predicate ν) (tag : Tag ν) :
    All [] tag = true ∧ Any [] tag = false ∧
    All [p] tag = p tag ∧ Any [p] tag = p tag := by
  refine ⟨rfl, rfl, ?_, ?_⟩ <;> simp [All, Any]

/-- C7: `HasClass cls` holds exactly when the `class` attribute is present and
splitting its value on single spaces yields a token equal to `cls`; an absent
`class` attribute yields `false`. The final conjunct pins down `splitSpaces`
as the single-space split: joining its pieces with single spaces restores the
attribute value and no piece contains a space. -/
theorem claim_C7_hasClass {ν : Type} (cls : String) (tag : Tag ν) :
    (HasClass cls tag = true ↔
      ∃ v, mapGet tag.Attrs "class" = some v ∧ cls ∈ splitSpaces v) ∧
    (mapGet tag.Attrs "class" = none → HasClass cls tag = false) ∧
    (∀ v : String, joinSp ((splitSpaces v).map String.data) = v.data ∧
      ∀ tok ∈ splitSpaces v, ' ' ∉ tok.data) := by
  refine ⟨⟨?_, ?_⟩, ?_, ?_⟩
  · intro h
    unfold HasClass at h
    cases hv : mapGet tag.Attrs "class" with
    | none => rw [hv] at h; exact absurd h (by simp)
    | some v =>
      rw [hv] at h
      exact ⟨v, rfl, by simpa using h⟩
  · rintro ⟨v, hv, hmem⟩
    unfold HasClass
    rw [hv]
    simpa using hmem
  · intro hv
    unfold HasClass
    rw [hv]
  · intro v
    exact ⟨joinSp_splitChars v.data, splitChars_no_space v.data⟩

/-- Witness for C7 at concrete inputs: a handle with `class="a b"` has class
`"a"`, and a handle without a `class` attribute has no class. -/
theorem claim_C7_hasClass_witness :
    HasClass "a" tagAB = true ∧ HasClass "a" tagNoClass = false := by
  constructor
  · exact (claim_C7_hasClass "a" tagAB).1.mpr ⟨"a b", rfl, by decide⟩
  · exact (claim_C7_hasClass "a" tagNoClass).2.1 rfl

/-- Constructs a `Tag` from a node (`newTag` of `tag.go`): name and attribute
snapshot plus the node reference. The Go function returns nil on a nil node;
call sites that may pass nil use `Option.map newTag` here. -/
def newTag (node : HNode) : Tag HNode :=
  ⟨node.data, goAttrs node.attr, node⟩

/-- Creates a stub without a name or attributes, but with the given pointer to
the tree node (`createDummy` of `tag.go`). -/
def createDummy (node : HNode) : Tag HNode :=
  ⟨"", [], node⟩

theorem sizeOf_newTag_node (c : HNode) : sizeOf (newTag c).node = sizeOf c := by
  simp [newTag]

mutual
/-- Inner recursion of `Tag.Find`: test the predicate on the current handle,
then loop `for child := t.FirstChild(); child != nil; child = child.Next()`.
`FirstChild` takes the literal first child whatever its kind and `Next` skips
to the next element sibling, so the loop visits the head of the child list
unconditionally and after that only element children; `findKids` runs that
loop, its flag marking the `FirstChild` position. -/
def findT (p : Predicate HNode) (t : Tag HNode) : Option (Tag HNode) :=
  if p t then some t else findKids p t.node.children true
termination_by sizeOf t.node
decreasing_by all_goals first
  | exact sizeOf_children_lt _
  | (simp only [sizeOf_newTag_node, List.cons.sizeOf_spec]; omega)
  | (simp only [List.cons.sizeOf_spec]; omega)

def findKids (p : Predicate HNode) : List HNode → Bool → Option (Tag HNode)
  | [], _ => none
  | c :: cs, first =>
      if first || c.ntype == NType.elementN then
        match findT p (newTag c) with
        | some r => some r
        | none => findKids p cs false
      else findKids p cs false
termination_by l _ => sizeOf l
decreasing_by all_goals first
  | exact sizeOf_children_lt _
  | (simp only [sizeOf_newTag_node, List.cons.sizeOf_spec]; omega)
  | (simp only [List.cons.sizeOf_spec]; omega)
end

/-- Find a child tag by predicate (`Tag.Find` of `tag.go`): run the recursive
search from a dummy handle aliasing this tag's node. -/
def Tag.Find (tag : Tag HNode) (predicate : Predicate HNode) : Option (Tag HNode) :=
  findT predicate (createDummy tag.node)

mutual
/-- Inner recursion of `Tag.FindAll`, accumulating every matching handle in
visit order. -/
def findAllT (p : Predicate HNode) (t : Tag HNode) : List (Tag HNode) :=
  (if p t then [t] else []) ++ findAllKids p t.node.children true
termination_by sizeOf t.node
decreasing_by all_goals first
  | exact sizeOf_children_lt _
  | (simp only [sizeOf_newTag_node, List.cons.sizeOf_spec]; omega)
  | (simp only [List.cons.sizeOf_spec]; omega)

def findAllKids (p : Predicate HNode) : List HNode → Bool → List (Tag HNode)
  | [], _ => []
  | c :: cs, first =>
      if first || c.ntype == NType.elementN then
        findAllT p (newTag c) ++ findAllKids p cs false
      else findAllKids p cs false
termination_by l _ => sizeOf l
decreasing_by all_goals first
  | exact sizeOf_children_lt _
  | (simp only [sizeOf_newTag_node, List.cons.sizeOf_spec]; omega)
  | (simp only [List.cons.sizeOf_spec]; omega)
end

/-- Find all children tags by predicate (`Tag.FindAll` of `tag.go`). -/
def Tag.FindAll (tag : Tag HNode) (predicate : Predicate HNode) : List (Tag HNode) :=
  findAllT predicate (createDummy tag.node)

mutual
/-- Specification-side list of handles the search recursion visits, in visit
(pre-)order: the handle itself, then for the child loop the literal first
child (any kind) and the later element children, recursively. -/
def visitT (t : Tag HNode) : List (Tag HNode) :=
  t :: visitKids t.node.children true
termination_by sizeOf t.node
decreasing_by all_goals first
  | exact sizeOf_children_lt _
  | (simp only [sizeOf_newTag_node, List.cons.sizeOf_spec]; omega)
  | (simp only [List.cons.sizeOf_spec]; omega)

def visitKids : List HNode → Bool → List (Tag HNode)
  | [], _ => []
  | c :: cs, first =>
      if first || c.ntype == NType.elementN then
        visitT (newTag c) ++ visitKids cs false
      else visitKids cs false
termination_by l _ => sizeOf l
decreasing_by all_goals first
  | exact sizeOf_children_lt _
  | (simp only [sizeOf_newTag_node, List.cons.sizeOf_spec]; omega)
  | (simp only [List.cons.sizeOf_spec]; omega)
end

mutual
theorem findT_eq_find? (p : Predicate HNode) (t : Tag HNode) :
    findT p t = (visitT t).find? p := by
  rw [findT.eq_def, visitT.eq_def, List.find?]
  by_cases hp : p t
  · simp [hp]
  · simp [hp, findKids_eq_find? p t.node.children true]
termination_by sizeOf t.node
decreasing_by exact sizeOf_children_lt _

theorem findKids_eq_find? (p : Predicate HNode) (l : List HNode) (b : Bool) :
    findKids p l b = (visitKids l b).find? p := by
  match l, b with
  | [], b => rw [findKids.eq_1, visitKids.eq_1]; rfl
  | c :: cs, b =>
    rw [findKids.eq_2, visitKids.eq_2]
    by_cases hg : (b || c.ntype == NType.elementN) = true
    · simp only [hg, if_true, List.find?_append, findT_eq_find? p (newTag c),
        findKids_eq_find? p cs false]
      cases List.find? p (visitT (newTag c)) <;> rfl
    · simp [hg, findKids_eq_find? p cs false]
termination_by sizeOf l
decreasing_by all_goals first
  | exact sizeOf_children_lt _
  | (simp only [sizeOf_newTag_node, List.cons.sizeOf_spec]; omega)
  | (simp only [List.cons.sizeOf_spec]; omega)
end

mutual
theorem findAllT_eq_filter (p : Predicate HNode) (t : Tag HNode) :
    findAllT p t = (visitT t).filter p := by
  rw [findAllT.eq_def, visitT.eq_def, List.filter]
  by_cases hp : p t
  · simp [hp, findAllKids_eq_filter p t.node.children true]
  · simp [hp, findAllKids_eq_filter p t.node.children true]
termination_by sizeOf t.node
decreasing_by all_goals exact sizeOf_children_lt _

theorem findAllKids_eq_filter (p : Predicate HNode) (l : List HNode) (b : Bool) :
    findAllKids p l b = (visitKids l b).filter p := by
  match l, b with
  | [], b => rw [findAllKids.eq_1, visitKids.eq_1]; rfl
  | c :: cs, b =>
    rw [findAllKids.eq_2, visitKids.eq_2]
    by_cases hg : (b || c.ntype == NType.elementN) = true
    · simp only [hg, if_true, List.filter_append, findAllT_eq_filter p (newTag c),
        findAllKids_eq_filter p cs false]
    · simp [hg, findAllKids_eq_filter p cs false]
termination_by sizeOf l
decreasing_by all_goals first
  | exact sizeOf_children_lt _
  | (simp only [sizeOf_newTag_node, List.cons.sizeOf_spec]; omega)
  | (simp only [List.cons.sizeOf_spec]; omega)
end

mutual
/-- Every handle the search visits below a handle refers to a node of the
corresponding subtree. -/
theorem visitT_node_mem (t u : Tag HNode) (hu : u ∈ visitT t) :
    u.node ∈ subNodes t.node := by
  rw [visitT.eq_def] at hu
  rw [subNodes_def]
  rcases List.mem_cons.mp hu with h | h
  · subst h; exact List.mem_cons_self _ _
  · exact List.mem_cons_of_mem _ (visitKids_node_mem t.node.children true u h)
termination_by sizeOf t.node
decreasing_by exact sizeOf_children_lt _

theorem visitKids_node_mem (l : List HNode) (b : Bool) (u : Tag HNode)
    (hu : u ∈ visitKids l b) : u.node ∈ subNodesL l := by
  match l, b with
  | [], b => rw [visitKids.eq_1] at hu; exact absurd hu (by simp)
  | c :: cs, b =>
    rw [visitKids.eq_2] at hu
    simp only [subNodesL]
    by_cases hg : (b || c.ntype == NType.elementN) = true
    · rw [if_pos hg] at hu
      rcases List.mem_append.mp hu with h | h
      · have := visitT_node_mem (newTag c) u h
        exact List.mem_append_left _ (by simpa [newTag] using this)
      · exact List.mem_append_right _ (visitKids_node_mem cs false u h)
    · rw [if_neg hg] at hu
      exact List.mem_append_right _ (visitKids_node_mem cs false u hu)
termination_by sizeOf l
decreasing_by all_goals first
  | exact sizeOf_children_lt _
  | (simp only [sizeOf_newTag_node, List.cons.sizeOf_spec]; omega)
  | (simp only [List.cons.sizeOf_spec]; omega)
end

mutual
/-- The node identities of the visited handles form a sublist of the pre-order
identity list of the subtree: each node is visited at most once and in
document order. -/
theorem visitT_ids_sublist (t : Tag HNode) :
    ((visitT t).map (fun u => u.node.id)).Sublist (allIds t.node) := by
  rw [visitT.eq_def, allIds_def]
  simp only [List.map_cons]
  exact List.Sublist.cons₂ _ (visitKids_ids_sublist t.node.children true)
termination_by sizeOf t.node
decreasing_by exact sizeOf_children_lt _

theorem visitKids_ids_sublist (l : List HNode) (b : Bool) :
    ((visitKids l b).map (fun u => u.node.id)).Sublist (allIdsL l) := by
  match l, b with
  | [], b => rw [visitKids.eq_1]; simp [allIdsL]
  | c :: cs, b =>
    rw [visitKids.eq_2]
    simp only [allIdsL]
    by_cases hg : (b || c.ntype == NType.elementN) = true
    · rw [if_pos hg]
      rw [List.map_append]
      refine List.Sublist.append ?_ (visitKids_ids_sublist cs false)
      have h1 := visitT_ids_sublist (newTag c)
      simpa [newTag] using h1
    · rw [if_neg hg]
      exact (visitKids_ids_sublist cs false).trans (List.sublist_append_right _ _)
termination_by sizeOf l
decreasing_by all_goals first
  | exact sizeOf_children_lt _
  | (simp only [sizeOf_newTag_node, List.cons.sizeOf_spec]; omega)
  | (simp only [List.cons.sizeOf_spec]; omega)
end

mutual
/-- Well-formedness of parser output: non-element nodes (text, comments,
doctypes) never have children. -/
def NEleaf : HNode → Prop
  | .mk _ ty _ _ cs => (ty = .elementN ∨ cs = []) ∧ NEleafL cs

def NEleafL : List HNode → Prop
  | [] => True
  | c :: cs => NEleaf c ∧ NEleafL cs
end

mutual
/-- On parser-shaped trees every element node of a subtree is visited by the
search recursion. -/
theorem visitT_covers (n : HNode) (hne : NEleaf n) :
    ∀ e ∈ subNodes n, e.ntype = .elementN → ∃ u ∈ visitT (newTag n), u.node = e := by
  intro e he hel
  rw [subNodes_def] at he
  rw [visitT.eq_def]
  rcases List.mem_cons.mp he with h | h
  · exact ⟨newTag n, List.mem_cons_self _ _, by simp [newTag, h]⟩
  · have hkids : NEleafL n.children := by
      cases n with
      | mk i ty d a cs => exact hne.2
    have hnode : (newTag n).node.children = n.children := by simp [newTag]
    rcases visitKids_covers n.children true hkids e h hel with ⟨u, hu, hun⟩
    exact ⟨u, List.mem_cons_of_mem _ (by rw [hnode]; exact hu), hun⟩
termination_by sizeOf n
decreasing_by all_goals first
  | exact sizeOf_children_lt _
  | (simp only [sizeOf_newTag_node, List.cons.sizeOf_spec]; omega)
  | (simp only [List.cons.sizeOf_spec]; omega)

theorem visitKids_covers (l : List HNode) (b : Bool) (hne : NEleafL l) :
    ∀ e ∈ subNodesL l, e.ntype = .elementN → ∃ u ∈ visitKids l b, u.node = e := by
  match l, b with
  | [], b => intro e he; rw [subNodesL] at he; exact absurd he (by simp)
  | c :: cs, b =>
    intro e he hel
    rw [subNodesL] at he
    rw [visitKids.eq_2]
    have hnec : NEleaf c := hne.1
    have hnecs : NEleafL cs := hne.2
    by_cases hg : (b || c.ntype == NType.elementN) = true
    · rw [if_pos hg]
      rcases List.mem_append.mp he with h | h
      · rcases visitT_covers c hnec e h hel with ⟨u, hu, hun⟩
        exact ⟨u, List.mem_append_left _ hu, hun⟩
      · rcases visitKids_covers cs false hnecs e h hel with ⟨u, hu, hun⟩
        exact ⟨u, List.mem_append_right _ hu, hun⟩
    · rw [if_neg hg]
      rcases List.mem_append.mp he with h | h
      · exfalso
        have hb : c.ntype ≠ NType.elementN := by
          intro hc
          exact hg (by simp [hc])
        have hcs : c.children = [] := by
          cases c with
          | mk i ty d a cs2 =>
            rcases hnec.1 with h1 | h1
            · exact absurd h1 (by simpa [HNode.ntype] using hb)
            · simpa [HNode.children] using h1
        rw [subNodes_def, hcs] at h
        rcases List.mem_cons.mp h with h2 | h2
        · rw [h2] at hel; exact hb hel
        · rw [subNodesL] at h2; exact absurd h2 (by simp)
      · exact visitKids_covers cs false hnecs e h hel
termination_by sizeOf l
decreasing_by all_goals first
  | exact sizeOf_children_lt _
  | (simp only [sizeOf_newTag_node, List.cons.sizeOf_spec]; omega)
  | (simp only [List.cons.sizeOf_spec]; omega)
end

/-- A childless element node. -/
def c2node : HNode := .mk 0 .elementN "div" [] []

/-- An element node with one element child. -/
def spanN : HNode := .mk 1 .elementN "span" [] []

def c2wit : HNode := .mk 0 .elementN "div" [] [spanN]

def c3text : HNode := .mk 1 .textN "hello" [] []

def c3span : HNode := .mk 2 .elementN "span" [] []

/-- An element whose first child is a text node followed by an element. -/
def c3div : HNode := .mk 0 .elementN "div" [] [c3text, c3span]

/-- Counterexample to C2 as stated: `Find` invoked on a handle with the
always-true predicate `All []` returns the dummy stub, a handle aliasing the
searched handle's own underlying node — the search root is tested against the
predicate (as the blank dummy) and can be returned. -/
theorem claim_C2_counterexample :
    Tag.Find (newTag c2node) (All []) = some (createDummy c2node) ∧
    (createDummy c2node).node = (newTag c2node).node ∧
    All [] (createDummy c2node) = true := by
  refine ⟨?_, rfl, rfl⟩
  rw [Tag.Find, findT.eq_def]
  simp [All, newTag, createDummy]

/-- C2 amended: `Find` never tests the invoked handle itself, but it does test
a blank dummy stub (empty name, no attributes) aliasing that handle's node;
whenever the predicate rejects that blank stub, every handle `Find` returns
refers to a proper descendant of the handle's node. -/
theorem claim_C2_root_exclusion (h : Tag HNode) (p : Predicate HNode)
    (hp : p (createDummy h.node) = false) :
    ∀ t, Tag.Find h p = some t → t.node ∈ subNodesL h.node.children := by
  intro t ht
  rw [Tag.Find, findT_eq_find? p (createDummy h.node), visitT.eq_def] at ht
  rw [List.find?_cons_of_neg _ (by simpa [createDummy] using hp)] at ht
  have hmem := List.mem_of_find?_eq_some ht
  have := visitKids_node_mem (createDummy h.node).node.children true t hmem
  simpa [createDummy] using this

/-- Witness for the amended C2 at a concrete input: searching a one-child
`div` for name `span` yields a proper descendant. -/
theorem claim_C2_root_exclusion_witness :
    ∃ t, Tag.Find (newTag c2wit) (HasName "span") = some t ∧
      t.node ∈ subNodesL (newTag c2wit).node.children := by
  have hfind : Tag.Find (newTag c2wit) (HasName "span") = some (newTag spanN) := by
    rw [Tag.Find, findT.eq_def]
    simp only [newTag, createDummy, c2wit, HNode.data, HNode.attr, HNode.children,
      HasName, goAttrs]
    rw [if_neg (by decide)]
    rw [findKids.eq_2]
    rw [if_pos (by decide)]
    rw [findT.eq_def]
    simp [spanN, newTag, HNode.data, HNode.attr, HNode.children, HasName, goAttrs,
      mapInsert, findKids]
  exact ⟨newTag spanN,
    hfind,
    claim_C2_root_exclusion (newTag c2wit) (HasName "span") (by decide)
      (newTag spanN) hfind⟩

/-- Counterexample to C3 as stated: `FindAll` on an element whose first child
is a text node tests and returns that text node — non-element descendants can
be predicate candidates. -/
theorem claim_C3_counterexample :
    Tag.FindAll (newTag c3div) (HasName "hello") = [newTag c3text] ∧
    c3text.ntype = .textN ∧ c3text ∈ subNodesL c3div.children := by
  refine ⟨?_, rfl, ?_⟩
  · rw [Tag.FindAll]
    simp [findAllT, findAllKids, newTag, createDummy, c3div, c3text, c3span,
      HNode.data, HNode.attr, HNode.children, HNode.ntype, HasName, goAttrs]
  · simp [subNodesL, subNodes, c3div, c3text, c3span, HNode.children]

/-- C3 amended: `FindAll` and `Find` traverse the candidate handles in
pre-order document order — the blank dummy for the invoked handle first, then
recursively each visited node's literal first child (of any kind) together
with the element-kind later siblings. `FindAll` returns exactly the matching
candidates in that order (so the empty list when nothing matches) and, when
node identities are distinct, visits no node twice; `Find` returns the first
match. On parser-shaped trees (non-element nodes childless) every element
descendant is among the candidates. -/
theorem claim_C3_find_traversal (h : Tag HNode) (p : Predicate HNode) :
    Tag.FindAll h p = (visitT (createDummy h.node)).filter p ∧
    Tag.Find h p = (visitT (createDummy h.node)).find? p ∧
    ((allIds h.node).Nodup →
      ((visitT (createDummy h.node)).map (fun u => u.node.id)).Nodup) ∧
    (∀ u ∈ visitT (createDummy h.node),
      u.node = h.node ∨ u.node ∈ subNodesL h.node.children) ∧
    (NEleafL h.node.children → ∀ e ∈ subNodesL h.node.children,
      e.ntype = .elementN → ∃ u ∈ visitKids h.node.children true, u.node = e) := by
  refine ⟨?_, ?_, ?_, ?_, ?_⟩
  · rw [Tag.FindAll]
    exact findAllT_eq_filter p (createDummy h.node)
  · rw [Tag.Find]
    exact findT_eq_find? p (createDummy h.node)
  · intro hnd
    have hsub := visitT_ids_sublist (createDummy h.node)
    exact hsub.nodup (by simpa [createDummy] using hnd)
  · intro u hu
    have := visitT_node_mem (createDummy h.node) u hu
    rw [subNodes_def] at this
    have h2 := List.mem_cons.mp this
    simpa [createDummy] using h2
  · intro hne e he hel
    exact visitKids_covers h.node.children true hne e he hel

/-- Witness for the amended C3 at the concrete mixed tree `c3div`: the filter
equation, the candidate-identity nodup, and coverage of the element child. -/
theorem claim_C3_find_traversal_witness :
    Tag.FindAll (newTag c3div) (HasName "span") =
      (visitT (createDummy c3div)).filter (HasName "span") ∧
    ((visitT (createDummy c3div)).map (fun u => u.node.id)).Nodup ∧
    (∃ u ∈ visitKids c3div.children true, u.node = c3span) := by
  have H := claim_C3_find_traversal (newTag c3div) (HasName "span")
  refine ⟨by simpa [newTag] using H.1, ?_, ?_⟩
  · apply H.2.2.1
    simp [newTag, c3div, c3text, c3span, allIds, allIdsL, HNode.id]
  · have := H.2.2.2.2 (by simp [newTag, c3div, c3text, c3span, NEleafL, NEleaf,
      HNode.children])
    have hmem : c3span ∈ subNodesL (newTag c3div).node.children := by
      simp [newTag, c3div, c3text, c3span, subNodesL, subNodes, HNode.children]
    have hres := this c3span hmem (by rfl)
    simpa [newTag] using hres

/-- Materialization of a handle for the nearest ancestor (`Tag.Parent` of
`tag.go`, `newTag(tag.node.Parent)`): the parent pointers of a node are
embedded as the list of its ancestor nodes, nearest first, and `Parent` pops
the head. `none` is the nil parent pointer at the root. -/
def parentTag : List HNode → Option (Tag HNode × List HNode)
  | [] => none
  | a :: rest => some (newTag a, rest)

mutual
/-- Inner recursion of `Tag.FindParent`: `find(t)` returns nil on a nil
handle, returns `t` when the predicate accepts it, and otherwise loops
`for parent := t.Parent(); parent != nil; parent = parent.Parent()`
re-invoking `find` on each ancestor. -/
def findPar (p : Predicate HNode) : Option (Tag HNode × List HNode) → Option (Tag HNode)
  | none => none
  | some (t, anc) => if p t then some t else findParLoop p anc
termination_by x => match x with
  | none => 0
  | some (_, anc) => 2 * anc.length + 1

def findParLoop (p : Predicate HNode) : List HNode → Option (Tag HNode)
  | [] => none
  | a :: rest =>
      match findPar p (some (newTag a, rest)) with
      | some r => some r
      | none => findParLoop p rest
termination_by l => 2 * l.length
end

/-- Find a parent tag by predicate (`Tag.FindParent` of `tag.go`):
`find(tag.Parent())` where `anc` is the handle's ancestor node chain,
nearest first. -/
def Tag.FindParent (tag : Tag HNode) (anc : List HNode)
    (predicate : Predicate HNode) : Option (Tag HNode) :=
  findPar predicate (parentTag anc)

mutual
theorem findPar_eq (p : Predicate HNode) (t : Tag HNode) (anc : List HNode) :
    findPar p (some (t, anc)) =
      if p t then some t else ((anc.map newTag).find? p) := by
  rw [findPar.eq_2]
  by_cases hp : p t
  · simp [hp]
  · simp [hp, findParLoop_eq p anc]
termination_by 2 * anc.length + 1
decreasing_by all_goals (try simp only [List.length_cons]); all_goals omega

theorem findParLoop_eq (p : Predicate HNode) (l : List HNode) :
    findParLoop p l = ((l.map newTag).find? p) := by
  match l with
  | [] => rw [findParLoop.eq_1]; rfl
  | a :: rest =>
    rw [findParLoop.eq_2]
    rw [findPar_eq p (newTag a) rest]
    simp only [List.map_cons, List.find?]
    by_cases hp : p (newTag a)
    · simp [hp]
    · simp only [hp, if_false, Bool.false_eq_true]
      rw [findParLoop_eq p rest]
      cases (rest.map newTag).find? p <;> simp
termination_by 2 * l.length
decreasing_by all_goals (try simp only [List.length_cons]); all_goals omega
end

/-- C9: `FindParent`, despite its nested recursion, is the plain iterative
ancestor walk: it returns the first (nearest) ancestor handle satisfying the
predicate, scanning the chain from the parent strictly upward, or absent when
the chain is exhausted; and (as long as the handle's node is not its own
ancestor) it never returns the handle itself. -/
theorem claim_C9_findParent_walk (tag : Tag HNode) (anc : List HNode)
    (p : Predicate HNode) :
    Tag.FindParent tag anc p = ((anc.map newTag).find? p) ∧
    (tag.node.id ∉ anc.map HNode.id →
      ∀ r, Tag.FindParent tag anc p = some r → r ≠ tag) := by
  have hmain : Tag.FindParent tag anc p = ((anc.map newTag).find? p) := by
    rw [Tag.FindParent]
    cases anc with
    | nil => rw [parentTag, findPar.eq_1]; rfl
    | cons a rest =>
      rw [parentTag, findPar_eq p (newTag a) rest]
      simp only [List.map_cons, List.find?]
      by_cases hp : p (newTag a)
      · simp [hp]
      · simp [hp]
  refine ⟨hmain, ?_⟩
  intro hno r hr hrt
  subst hrt
  rw [hmain] at hr
  have hmem := List.mem_of_find?_eq_some hr
  rcases List.mem_map.mp hmem with ⟨a, ha, hra⟩
  apply hno
  rw [List.mem_map]
  refine ⟨a, ha, ?_⟩
  rw [← hra]
  simp [newTag]

/-- Ancestors used by the C9 witness. -/
def c9p : HNode := .mk 6 .elementN "p" [] []

def c9div : HNode := .mk 7 .elementN "div" [] []

def c9span : Tag HNode := newTag (.mk 5 .elementN "span" [] [])

/-- Witness for C9 at a concrete chain `span → p → div`: searching the
ancestors for name `div` finds the grandparent, which is not the handle. -/
theorem claim_C9_findParent_walk_witness :
    Tag.FindParent c9span [c9p, c9div] (HasName "div") = some (newTag c9div) ∧
    newTag c9div ≠ c9span := by
  have H := claim_C9_findParent_walk c9span [c9p, c9div] (HasName "div")
  have heq : (([c9p, c9div].map newTag).find? (HasName "div")) = some (newTag c9div) := by
    simp [c9p, c9div, newTag, HasName, HNode.data, HNode.attr, goAttrs]
  have hfind := H.1.trans heq
  refine ⟨hfind, ?_⟩
  exact H.2 (by simp [c9span, c9p, c9div, newTag, HNode.id]) (newTag c9div) hfind

mutual
/-- Finding the first element node from a given root (`findElementNode` of
`document.go`): return the node if it is an element, otherwise recurse into
the children in order. -/
def findElementNode : HNode → Option HNode
  | n =>
    if n.ntype = .elementN then some n
    else findElementNodeL n.children
termination_by n => sizeOf n
decreasing_by exact sizeOf_children_lt _

def findElementNodeL : List HNode → Option HNode
  | [] => none
  | c :: cs =>
      match findElementNode c with
      | some found => some found
      | none => findElementNodeL cs
termination_by l => sizeOf l
decreasing_by all_goals simp only [List.cons.sizeOf_spec]; omega
end

/-- The tree-level view of a `Document` (`document.go`): the root element.
The handle cache it also carries is modelled in the `World` section below;
`getDocument` initialises it empty, which does not affect which root is
chosen or whether construction fails. -/
structure DocA where
  root : HNode

/-- Finding the root element node of a parsed document (`getDocument` of
`document.go`). -/
def getDocument (root : HNode) : Except String DocA :=
  match findElementNode root with
  | none => .error "no element node found"
  | some rootElement => .ok ⟨rootElement⟩

/-- Document construction from the external parser's outcome (`Parse`,
`ParseBytes`, `ParseString` of `document.go`): a parser error is returned
unchanged, otherwise `getDocument` runs on the parsed tree. -/
def ParseWith (res : Except String HNode) : Except String DocA :=
  match res with
  | .error e => .error e
  | .ok root => getDocument root

mutual
theorem findElementNode_eq_find? (n : HNode) :
    findElementNode n = (subNodes n).find? (fun x => x.ntype == NType.elementN) := by
  rw [findElementNode.eq_def, subNodes_def, List.find?]
  by_cases he : n.ntype = NType.elementN
  · simp [he]
  · simp only [he, if_false]
    rw [findElementNodeL_eq_find? n.children]
    have : (n.ntype == NType.elementN) = false := by simpa using he
    simp [this]
termination_by sizeOf n
decreasing_by exact sizeOf_children_lt _

theorem findElementNodeL_eq_find? (l : List HNode) :
    findElementNodeL l = (subNodesL l).find? (fun x => x.ntype == NType.elementN) := by
  match l with
  | [] => rw [findElementNodeL.eq_1]; rfl
  | c :: cs =>
    rw [findElementNodeL.eq_2]
    simp only [subNodesL, List.find?_append]
    rw [findElementNode_eq_find? c, findElementNodeL_eq_find? cs]
    cases (subNodes c).find? (fun x => x.ntype == NType.elementN) <;> rfl
termination_by sizeOf l
decreasing_by all_goals simp only [List.cons.sizeOf_spec]; omega
end

/-- C8: document construction fails in exactly two ways — a parser error is
propagated unchanged, and a tree with no element node yields the distinct
construction error — and otherwise succeeds with the first element node in
pre-order as root; a search finding nothing is the absent value `none`, never
an error (it is `none` exactly when no candidate matches). -/
theorem claim_C8_parse_errors (res : Except String HNode) :
    (∀ e, res = .error e → ParseWith res = .error e) ∧
    (∀ root, res = .ok root →
      (findElementNode root = none →
        ParseWith res = .error "no element node found") ∧
      (∀ n, findElementNode root = some n → ParseWith res = .ok ⟨n⟩) ∧
      findElementNode root = (subNodes root).find? (fun x => x.ntype == NType.elementN)) ∧
    (∀ (h : Tag HNode) (p : Predicate HNode),
      Tag.Find h p = none ↔ ∀ u ∈ visitT (createDummy h.node), p u = false) := by
  refine ⟨?_, ?_, ?_⟩
  · intro e he; rw [he]; rfl
  · intro root hroot
    refine ⟨?_, ?_, findElementNode_eq_find? root⟩
    · intro hn; rw [hroot]; simp [ParseWith, getDocument, hn]
    · intro n hn; rw [hroot]; simp [ParseWith, getDocument, hn]
  · intro h p
    rw [Tag.Find, findT_eq_find? p (createDummy h.node)]
    rw [List.find?_eq_none]
    constructor
    · intro hall u hu
      have := hall u hu
      simpa using this
    · intro hall u hu
      simp [hall u hu]

/-- Concrete parser outcomes for the C8 witness. -/
def c8tree : HNode := .mk 0 .documentN "" [] [.mk 1 .textN "x" [] [], .mk 2 .elementN "html" [] []]

def c8empty : HNode := .mk 0 .documentN "" [] [.mk 1 .textN "x" [] []]

/-- Witness for C8 at concrete outcomes: an error string is propagated
unchanged, an element-free tree gives the construction error, and a document
tree yields its first pre-order element as root. -/
theorem claim_C8_parse_errors_witness :
    ParseWith (.error "boom") = .error "boom" ∧
    ParseWith (.ok c8empty) = .error "no element node found" ∧
    ParseWith (.ok c8tree) = .ok ⟨.mk 2 .elementN "html" [] []⟩ := by
  refine ⟨?_, ?_, ?_⟩
  · exact (claim_C8_parse_errors (.error "boom")).1 "boom" rfl
  · refine ((claim_C8_parse_errors (.ok c8empty)).2.1 c8empty rfl).1 ?_
    simp [findElementNode, findElementNodeL, c8empty, HNode.ntype, HNode.children]
  · refine ((claim_C8_parse_errors (.ok c8tree)).2.1 c8tree rfl).2.1 _ ?_
    simp [findElementNode, findElementNodeL, c8tree, HNode.ntype, HNode.children]

/-- A parse-tree node in the pointer-graph view (`html.Node`): kind, data,
attributes, and the five navigation links. -/
structure PNode where
  ntype : NType := NType.errorN
  data : String := ""
  attr : List (String × String) := []
  parent : Option Nat := none
  firstChild : Option Nat := none
  lastChild : Option Nat := none
  prevSibling : Option Nat := none
  nextSibling : Option Nat := none
  deriving Repr, DecidableEq

/-- The heap of parse-tree nodes: node pointer (id) to node record. -/
def Store := Nat → PNode

/-- Pointwise update of one node. -/
def upd (s : Store) (i : Nat) (f : PNode → PNode) : Store :=
  fun j => if j = i then f (s j) else s j

/-- Statement `if n.FirstChild == c { n.FirstChild = c.NextSibling }` of
`RemoveChild`. -/
def rcStage1 (s : Store) (n c : Nat) : Store :=
  if (s n).firstChild = some c then
    upd s n (fun x => {x with firstChild := (s c).nextSibling})
  else s

/-- Statement `if c.NextSibling != nil { c.NextSibling.PrevSibling = c.PrevSibling }`. -/
def rcStage2 (s : Store) (c : Nat) : Store :=
  match (s c).nextSibling with
  | some nx => upd s nx (fun x => {x with prevSibling := (s c).prevSibling})
  | none => s

/-- Statement `if n.LastChild == c { n.LastChild = c.PrevSibling }`. -/
def rcStage3 (s : Store) (n c : Nat) : Store :=
  if (s n).lastChild = some c then
    upd s n (fun x => {x with lastChild := (s c).prevSibling})
  else s

/-- Statement `if c.PrevSibling != nil { c.PrevSibling.NextSibling = c.NextSibling }`. -/
def rcStage4 (s : Store) (c : Nat) : Store :=
  match (s c).prevSibling with
  | some pv => upd s pv (fun x => {x with nextSibling := (s c).nextSibling})
  | none => s

/-- Statements `c.Parent = nil; c.PrevSibling = nil; c.NextSibling = nil`. -/
def rcStage5 (s : Store) (c : Nat) : Store :=
  upd s c (fun x => {x with parent := none, prevSibling := none, nextSibling := none})

/-- The `RemoveChild` method of `golang.org/x/net/html` — the external
collaborator `Unwrap` calls — transcribed statement by statement, each
statement reading the store as mutated by the preceding ones; `none` models
its panic when the argument is not a child of the receiver. -/
def removeChild (s : Store) (n c : Nat) : Option Store :=
  if (s c).parent ≠ some n then none
  else some (rcStage5 (rcStage4 (rcStage3 (rcStage2 (rcStage1 s n c) c) n c) c) c)

/-- Removes the current tag from the tree (`Tag.Unwrap` of `tag.go`):
`tag.node.Parent.RemoveChild(tag.node)`. Reading `.Parent` of a parentless
node dereferences a nil pointer; that crash is modelled as `none`. -/
def Tag.UnwrapS (s : Store) (c : Nat) : Option Store :=
  match (s c).parent with
  | none => none
  | some p => removeChild s p c

/-- C10: `Unwrap` is total exactly under the precondition that the node has a
parent — with a parent the call succeeds (the `RemoveChild` panic branch is
unreachable because the receiver is the node's own parent), and without one it
dereferences a nil parent pointer instead of being a no-op or an error
value. -/
theorem claim_C10_unwrap_precondition (s : Store) (c : Nat) :
    ((s c).parent = none → Tag.UnwrapS s c = none) ∧
    (∀ p, (s c).parent = some p → ∃ s2, Tag.UnwrapS s c = some s2) := by
  constructor
  · intro h
    simp only [Tag.UnwrapS, h]
  · intro p hp
    simp only [Tag.UnwrapS, hp, removeChild]
    rw [if_neg (by simp [hp])]
    exact ⟨_, rfl⟩

/-- A two-node store: node 1 is the only child of a parentless root 0. -/
def c10store : Store := fun i =>
  if i = 0 then
    ({ ntype := NType.elementN, data := "div", firstChild := some 1, lastChild := some 1 } : PNode)
  else if i = 1 then
    ({ ntype := NType.elementN, data := "span", parent := some 0 } : PNode)
  else ({} : PNode)

/-- Witness for C10: unwrapping the parentless root crashes (`none`),
unwrapping the child succeeds, and unwrapping the child a second time in the
resulting store crashes. -/
theorem claim_C10_unwrap_precondition_witness :
    Tag.UnwrapS c10store 0 = none ∧
    (∃ s2, Tag.UnwrapS c10store 1 = some s2) ∧
    (∀ s2, Tag.UnwrapS c10store 1 = some s2 → Tag.UnwrapS s2 1 = none) := by
  refine ⟨?_, ?_, ?_⟩
  · exact (claim_C10_unwrap_precondition c10store 0).1 rfl
  · exact (claim_C10_unwrap_precondition c10store 1).2 0 rfl
  · intro s2 hs2
    apply (claim_C10_unwrap_precondition s2 1).1
    have hmapped : (Tag.UnwrapS c10store 1).map (fun st => (st 1).parent) = some none := by
      rfl
    rw [hs2] at hmapped
    simpa using hmapped

mutual
/-- The pointer store matches the inductive tree at node `i`: same kind, data
and attributes, and the child chain reachable from `firstChild` consists
exactly of the tree's children, with consistent parent and sibling links and
`lastChild` closing the chain. -/
def describes (s : Store) (i : Nat) : HNode → Prop
  | .mk nid ty d a cs =>
    i = nid ∧ (s i).ntype = ty ∧ (s i).data = d ∧ (s i).attr = a ∧
    descChain s i ((s i).firstChild) none cs
termination_by t => sizeOf t
decreasing_by simp only [HNode.mk.sizeOf_spec]; omega

/-- Chain predicate: starting at link `cur` whose previous sibling is `prev`,
the siblings are exactly the trees `cs`, children of `pid`. -/
def descChain (s : Store) (pid : Nat) : Option Nat → Option Nat → List HNode → Prop
  | cur, prev, [] => cur = none ∧ (s pid).lastChild = prev
  | cur, prev, c :: cs =>
      cur = some c.id ∧ describes s c.id c ∧ (s c.id).parent = some pid ∧
      (s c.id).prevSibling = prev ∧
      descChain s pid ((s c.id).nextSibling) (some c.id) cs
termination_by cur prev cs => sizeOf cs
decreasing_by all_goals simp only [List.cons.sizeOf_spec]; omega
end

theorem describes_def (s : Store) (i : Nat) (t : HNode) :
    describes s i t ↔
      (i = t.id ∧ (s i).ntype = t.ntype ∧ (s i).data = t.data ∧
       (s i).attr = t.attr ∧ descChain s i ((s i).firstChild) none t.children) := by
  cases t with
  | mk nid ty d a cs => rw [describes.eq_1]; rfl

mutual
/-- The `describes` relation only reads the root's kind, data, attributes,
`firstChild` and `lastChild`, and the full records of the strict subtree
nodes; stores agreeing there describe the same trees. -/
theorem describes_congr (s s2 : Store) (i : Nat) (t : HNode)
    (hroot : (s2 i).ntype = (s i).ntype ∧ (s2 i).data = (s i).data ∧
      (s2 i).attr = (s i).attr ∧ (s2 i).firstChild = (s i).firstChild ∧
      (s2 i).lastChild = (s i).lastChild)
    (hin : ∀ j ∈ allIdsL t.children, s2 j = s j)
    (hd : describes s i t) : describes s2 i t := by
  rw [describes_def] at hd ⊢
  refine ⟨hd.1, ?_, ?_, ?_, ?_⟩
  · rw [hroot.1]; exact hd.2.1
  · rw [hroot.2.1]; exact hd.2.2.1
  · rw [hroot.2.2.1]; exact hd.2.2.2.1
  · rw [hroot.2.2.2.1]
    exact descChain_congr s s2 i _ _ t.children hin hroot.2.2.2.2 hd.2.2.2.2
termination_by sizeOf t
decreasing_by exact sizeOf_children_lt t

/-- Chain version of `describes_congr`. -/
theorem descChain_congr (s s2 : Store) (pid : Nat) (cur prev : Option Nat)
    (cs : List HNode)
    (hin : ∀ j ∈ allIdsL cs, s2 j = s j)
    (hlc : (s2 pid).lastChild = (s pid).lastChild)
    (hd : descChain s pid cur prev cs) : descChain s2 pid cur prev cs := by
  match cs with
  | [] =>
    rw [descChain.eq_1] at hd ⊢
    exact ⟨hd.1, by rw [hlc]; exact hd.2⟩
  | c :: cs2 =>
    rw [descChain.eq_2] at hd ⊢
    have hcid : c.id ∈ allIdsL (c :: cs2) := by
      simp [allIdsL, allIds_def]
    have hceq : s2 c.id = s c.id := hin c.id hcid
    refine ⟨hd.1, ?_, ?_, ?_, ?_⟩
    · apply describes_congr s s2 c.id c
      · rw [hceq]
        exact ⟨rfl, rfl, rfl, rfl, rfl⟩
      · intro j hj
        apply hin
        simp only [allIdsL, allIds_def]
        rw [List.mem_append]
        left
        exact List.mem_cons_of_mem _ hj
      · exact hd.2.1
    · rw [hceq]; exact hd.2.2.1
    · rw [hceq]; exact hd.2.2.2.1
    · rw [hceq]
      apply descChain_congr s s2 pid _ _ cs2
      · intro j hj
        apply hin
        simp only [allIdsL]
        rw [List.mem_append]
        right
        exact hj
      · exact hlc
      · exact hd.2.2.2.2
termination_by sizeOf cs
decreasing_by all_goals simp only [List.cons.sizeOf_spec]; omega
end

/-- Link value pointing at the head of a sibling list. -/
def headIdOf : List HNode → Option Nat
  | [] => none
  | c :: _ => some c.id

/-- Link value pointing at the last of a sibling list, falling back to the
previous sibling when the list is empty. -/
def lastIdOf : List HNode → Option Nat → Option Nat
  | [], prev => prev
  | c :: cs, _ => lastIdOf cs (some c.id)

theorem chain_mem (s : Store) (pid : Nat) (cs : List HNode) :
    ∀ cur prev, descChain s pid cur prev cs →
      ∀ c ∈ cs, describes s c.id c ∧ (s c.id).parent = some pid := by
  induction cs with
  | nil => intro cur prev hd c hc; exact absurd hc (by simp)
  | cons c0 cs2 ih =>
    intro cur prev hd c hc
    rw [descChain.eq_2] at hd
    rcases List.mem_cons.mp hc with h | h
    · subst h; exact ⟨hd.2.1, hd.2.2.1⟩
    · exact ih _ _ hd.2.2.2.2 c h

theorem chain_start (s : Store) (pid : Nat) (cs : List HNode)
    (cur prev : Option Nat) (hd : descChain s pid cur prev cs) :
    cur = headIdOf cs := by
  cases cs with
  | nil => rw [descChain.eq_1] at hd; exact hd.1
  | cons c0 cs2 => rw [descChain.eq_2] at hd; exact hd.1

theorem chain_last (s : Store) (pid : Nat) (cs : List HNode) :
    ∀ cur prev, descChain s pid cur prev cs →
      (s pid).lastChild = lastIdOf cs prev := by
  induction cs with
  | nil =>
    intro cur prev hd
    rw [descChain.eq_1] at hd
    exact hd.2
  | cons c0 cs2 ih =>
    intro cur prev hd
    rw [descChain.eq_2] at hd
    exact ih _ _ hd.2.2.2.2

theorem chain_extract (s : Store) (pid : Nat) (S : HNode) (l2 : List HNode) :
    ∀ (l1 : List HNode) (cur prev : Option Nat),
      descChain s pid cur prev (l1 ++ S :: l2) →
      describes s S.id S ∧ (s S.id).parent = some pid ∧
      (s S.id).nextSibling = headIdOf l2 ∧
      (s S.id).prevSibling = lastIdOf l1 prev := by
  intro l1
  induction l1 with
  | nil =>
    intro cur prev hd
    rw [List.nil_append, descChain.eq_2] at hd
    refine ⟨hd.2.1, hd.2.2.1, ?_, hd.2.2.2.1⟩
    exact (chain_start s pid l2 _ _ hd.2.2.2.2).symm ▸ rfl
  | cons c0 rest ih =>
    intro cur prev hd
    rw [List.cons_append, descChain.eq_2] at hd
    exact ih _ _ hd.2.2.2.2

/-- The pointwise effect of `removeChild s n c` when `c` is a well-linked
child of `n` (sequential mutation flattened to one store map). -/
def afterRC (s : Store) (n c : Nat) : Store := fun j =>
  if j = c then
    {s c with parent := none, prevSibling := none, nextSibling := none}
  else if j = n then
    {s n with
      firstChild := if (s n).firstChild = some c then (s c).nextSibling else (s n).firstChild,
      lastChild := if (s n).lastChild = some c then (s c).prevSibling else (s n).lastChild}
  else if (s c).nextSibling = some j then
    {s j with prevSibling := (s c).prevSibling}
  else if (s c).prevSibling = some j then
    {s j with nextSibling := (s c).nextSibling}
  else s j

theorem afterRC_content (s : Store) (n c j : Nat) :
    ((afterRC s n c j).ntype = (s j).ntype ∧ (afterRC s n c j).data = (s j).data ∧
     (afterRC s n c j).attr = (s j).attr) := by
  unfold afterRC
  by_cases h1 : j = c
  · subst h1; simp
  · by_cases h2 : j = n
    · subst h2; simp [h1]
    · by_cases h3 : (s c).nextSibling = some j
      · simp [h1, h2, h3]
      · by_cases h4 : (s c).prevSibling = some j
        · simp [h1, h2, h3, h4]
        · simp [h1, h2, h3, h4]

theorem afterRC_self (s : Store) (n c : Nat) :
    afterRC s n c c =
      {s c with parent := none, prevSibling := none, nextSibling := none} := by
  unfold afterRC; simp

theorem afterRC_at_parent (s : Store) (n c : Nat) (hcn : c ≠ n)
    (hnx : (s c).nextSibling ≠ some n) (hpv : (s c).prevSibling ≠ some n) :
    afterRC s n c n =
      {s n with
        firstChild := if (s n).firstChild = some c then (s c).nextSibling else (s n).firstChild,
        lastChild := if (s n).lastChild = some c then (s c).prevSibling else (s n).lastChild} := by
  unfold afterRC
  rw [if_neg (by omega), if_pos rfl]

theorem afterRC_at_nx (s : Store) (n c x : Nat) (hx : (s c).nextSibling = some x)
    (hxc : x ≠ c) (hxn : x ≠ n) :
    afterRC s n c x = {s x with prevSibling := (s c).prevSibling} := by
  unfold afterRC
  rw [if_neg hxc, if_neg hxn, if_pos hx]

theorem afterRC_at_pv (s : Store) (n c y : Nat) (hy : (s c).prevSibling = some y)
    (hyc : y ≠ c) (hyn : y ≠ n) (hynx : (s c).nextSibling ≠ some y) :
    afterRC s n c y = {s y with nextSibling := (s c).nextSibling} := by
  unfold afterRC
  rw [if_neg hyc, if_neg hyn, if_neg hynx, if_pos hy]

theorem afterRC_other (s : Store) (n c j : Nat) (hjc : j ≠ c) (hjn : j ≠ n)
    (hjnx : (s c).nextSibling ≠ some j) (hjpv : (s c).prevSibling ≠ some j) :
    afterRC s n c j = s j := by
  unfold afterRC
  rw [if_neg hjc, if_neg hjn, if_neg hjnx, if_neg hjpv]

theorem upd_self (s : Store) (k : Nat) (f : PNode → PNode) : upd s k f k = f (s k) := by
  simp [upd]

theorem upd_other (s : Store) (k : Nat) (f : PNode → PNode) (j : Nat) (h : j ≠ k) :
    upd s k f j = s j := by
  simp [upd, h]

theorem rcStage1_apply (s : Store) (n c j : Nat) :
    rcStage1 s n c j =
      if j = n then
        {s n with firstChild :=
          if (s n).firstChild = some c then (s c).nextSibling else (s n).firstChild}
      else s j := by
  unfold rcStage1
  by_cases hfc : (s n).firstChild = some c <;> by_cases hjn : j = n <;>
    simp [upd, hfc, hjn]

theorem rcStage2_apply (s : Store) (c j : Nat) :
    rcStage2 s c j =
      match (s c).nextSibling with
      | some nx => if j = nx then {s j with prevSibling := (s c).prevSibling} else s j
      | none => s j := by
  unfold rcStage2
  rcases hnx : (s c).nextSibling with _ | x
  · rfl
  · by_cases hjx : j = x
    · subst hjx; simp [upd]
    · simp [upd, hjx]

theorem rcStage3_apply (s : Store) (n c j : Nat) :
    rcStage3 s n c j =
      if j = n then
        {s n with lastChild :=
          if (s n).lastChild = some c then (s c).prevSibling else (s n).lastChild}
      else s j := by
  unfold rcStage3
  by_cases hlc : (s n).lastChild = some c <;> by_cases hjn : j = n <;>
    simp [upd, hlc, hjn]

theorem rcStage4_apply (s : Store) (c j : Nat) :
    rcStage4 s c j =
      match (s c).prevSibling with
      | some pv => if j = pv then {s j with nextSibling := (s c).nextSibling} else s j
      | none => s j := by
  unfold rcStage4
  rcases hpv : (s c).prevSibling with _ | y
  · rfl
  · by_cases hjy : j = y
    · subst hjy; simp [upd]
    · simp [upd, hjy]

theorem rcStage5_apply (s : Store) (c j : Nat) :
    rcStage5 s c j =
      if j = c then {s c with parent := none, prevSibling := none, nextSibling := none}
      else s j := by
  unfold rcStage5
  by_cases hjc : j = c
  · subst hjc; simp [upd]
  · simp [upd, hjc]

set_option maxHeartbeats 3200000 in
/-- Under the linkage conditions that hold for a well-linked child, the
sequential mutations of `removeChild` amount to the pointwise map
`afterRC`. -/
theorem removeChild_eq (s : Store) (n c : Nat)
    (hpar : (s c).parent = some n) (hcn : c ≠ n)
    (hnxc : (s c).nextSibling ≠ some c) (hnxn : (s c).nextSibling ≠ some n)
    (hpvc : (s c).prevSibling ≠ some c) (hpvn : (s c).prevSibling ≠ some n)
    (hnxpv : ∀ x, (s c).nextSibling = some x → (s c).prevSibling ≠ some x) :
    removeChild s n c = some (afterRC s n c) := by
  unfold removeChild
  rw [if_neg (by simp [hpar])]
  refine congrArg some ?_
  have hnc : ¬ n = c := fun h => hcn h.symm
  funext j
  rcases hnx : (s c).nextSibling with _ | x
  · rcases hpv : (s c).prevSibling with _ | y
    · simp only [rcStage5_apply, rcStage4_apply, rcStage3_apply, rcStage2_apply,
        rcStage1_apply, afterRC, hnx, hpv, if_neg hnc, ite_false, ite_true]
      split_ifs <;> intros <;> first | rfl | (exfalso; omega) | ((try simp_all) <;> intros <;> (try split_ifs) <;> intros <;> first | rfl | (exfalso; omega))
    · have hyc : ¬ y = c := fun h => hpvc (by rw [hpv, h])
      have hyn : ¬ y = n := fun h => hpvn (by rw [hpv, h])
      have hcy : ¬ c = y := fun h => hyc h.symm
      have hny : ¬ n = y := fun h => hyn h.symm
      simp only [rcStage5_apply, rcStage4_apply, rcStage3_apply, rcStage2_apply,
        rcStage1_apply, afterRC, hnx, hpv, if_neg hnc, if_neg hyn, if_neg hyc,
        if_neg hcy, if_neg hny, ite_false, ite_true]
      split_ifs <;> intros <;> first | rfl | (exfalso; omega) | ((try simp_all) <;> intros <;> (try split_ifs) <;> intros <;> first | rfl | (exfalso; omega))
  · rcases hpv : (s c).prevSibling with _ | y
    · have hxc : ¬ x = c := fun h => hnxc (by rw [hnx, h])
      have hxn : ¬ x = n := fun h => hnxn (by rw [hnx, h])
      have hcx : ¬ c = x := fun h => hxc h.symm
      have hnx2 : ¬ n = x := fun h => hxn h.symm
      simp only [rcStage5_apply, rcStage4_apply, rcStage3_apply, rcStage2_apply,
        rcStage1_apply, afterRC, hnx, hpv, if_neg hnc, if_neg hxc, if_neg hxn,
        if_neg hcx, if_neg hnx2, ite_false, ite_true]
      split_ifs <;> intros <;> first | rfl | (exfalso; omega) | ((try simp_all) <;> intros <;> (try split_ifs) <;> intros <;> first | rfl | (exfalso; omega))
    · have hxc : ¬ x = c := fun h => hnxc (by rw [hnx, h])
      have hxn : ¬ x = n := fun h => hnxn (by rw [hnx, h])
      have hyc : ¬ y = c := fun h => hpvc (by rw [hpv, h])
      have hyn : ¬ y = n := fun h => hpvn (by rw [hpv, h])
      have hyx : ¬ y = x := fun h => hnxpv x hnx (by rw [hpv, h])
      have hxy : ¬ x = y := fun h => hyx (h.symm)
      have hcx : ¬ c = x := fun h => hxc h.symm
      have hnx2 : ¬ n = x := fun h => hxn h.symm
      have hcy : ¬ c = y := fun h => hyc h.symm
      have hny : ¬ n = y := fun h => hyn h.symm
      simp only [rcStage5_apply, rcStage4_apply, rcStage3_apply, rcStage2_apply,
        rcStage1_apply, afterRC, hnx, hpv, if_neg hnc, if_neg hxc, if_neg hxn,
        if_neg hyc, if_neg hyn, if_neg hyx, if_neg hxy, if_neg hcx, if_neg hnx2,
        if_neg hcy, if_neg hny, ite_false, ite_true]
      split_ifs <;> intros <;> first | rfl | (exfalso; omega) | ((try simp_all) <;> intros <;> (try split_ifs) <;> intros <;> first | rfl | (exfalso; omega))

theorem allIdsL_append (l1 l2 : List HNode) :
    allIdsL (l1 ++ l2) = allIdsL l1 ++ allIdsL l2 := by
  induction l1 with
  | nil => simp [allIdsL]
  | cons c cs ih => simp [allIdsL, ih]

theorem id_mem_allIds (t : HNode) : t.id ∈ allIds t := by
  rw [allIds_def]; exact List.mem_cons_self _ _

theorem mem_allIdsL_of_mem {c : HNode} {cs : List HNode} (h : c ∈ cs) :
    c.id ∈ allIdsL cs := by
  induction cs with
  | nil => exact absurd h (by simp)
  | cons c0 cs2 ih =>
    rcases List.mem_cons.mp h with h1 | h1
    · subst h1
      simp only [allIdsL]
      exact List.mem_append_left _ (id_mem_allIds c)
    · simp only [allIdsL]
      exact List.mem_append_right _ (ih h1)

theorem mem_subNodesL_iff {u : HNode} {cs : List HNode} :
    u ∈ subNodesL cs ↔ ∃ c ∈ cs, u ∈ subNodes c := by
  induction cs with
  | nil => simp [subNodesL]
  | cons c0 cs2 ih =>
    simp only [subNodesL, List.mem_append, ih]
    constructor
    · rintro (h | ⟨c, hc, hu⟩)
      · exact ⟨c0, List.mem_cons_self _ _, h⟩
      · exact ⟨c, List.mem_cons_of_mem _ hc, hu⟩
    · rintro ⟨c, hc, hu⟩
      rcases List.mem_cons.mp hc with h1 | h1
      · subst h1; exact Or.inl hu
      · exact Or.inr ⟨c, h1, hu⟩

mutual
theorem allIds_subset_of_mem_subNodes (t : HNode) :
    ∀ u ∈ subNodes t, ∀ j ∈ allIds u, j ∈ allIds t := by
  intro u hu j hj
  rw [subNodes_def] at hu
  rcases List.mem_cons.mp hu with h | h
  · subst h; exact hj
  · rw [allIds_def]
    exact List.mem_cons_of_mem _
      (allIdsL_subset_of_mem_subNodesL t.children u h j hj)
termination_by sizeOf t
decreasing_by exact sizeOf_children_lt _

theorem allIdsL_subset_of_mem_subNodesL (cs : List HNode) :
    ∀ u ∈ subNodesL cs, ∀ j ∈ allIds u, j ∈ allIdsL cs := by
  match cs with
  | [] => intro u hu; rw [subNodesL] at hu; exact absurd hu (by simp)
  | c :: cs2 =>
    intro u hu j hj
    rw [subNodesL] at hu
    simp only [allIdsL]
    rcases List.mem_append.mp hu with h | h
    · exact List.mem_append_left _ (allIds_subset_of_mem_subNodes c u h j hj)
    · exact List.mem_append_right _ (allIdsL_subset_of_mem_subNodesL cs2 u h j hj)
termination_by sizeOf cs
decreasing_by all_goals simp only [List.cons.sizeOf_spec]; omega
end

mutual
/-- Removal of the child subtrees rooted at the node with identity `x`. -/
def removeSub (x : Nat) : HNode → HNode
  | .mk i ty d a cs => .mk i ty d a (removeSubL x cs)

def removeSubL (x : Nat) : List HNode → List HNode
  | [] => []
  | c :: cs => if c.id = x then removeSubL x cs else removeSub x c :: removeSubL x cs
end

theorem removeSub_root (x : Nat) (t : HNode) :
    (removeSub x t).id = t.id ∧ (removeSub x t).ntype = t.ntype ∧
    (removeSub x t).data = t.data ∧ (removeSub x t).attr = t.attr ∧
    (removeSub x t).children = removeSubL x t.children := by
  cases t with
  | mk i ty d a cs => exact ⟨rfl, rfl, rfl, rfl, rfl⟩

mutual
theorem removeSub_not_mem (x : Nat) (t : HNode) (hx : x ∉ allIds t) :
    removeSub x t = t := by
  match t, hx with
  | .mk i ty d a cs, hx =>
    rw [removeSub]
    have : removeSubL x cs = cs := by
      apply removeSubL_not_mem
      intro h
      exact hx (by rw [allIds]; exact List.mem_cons_of_mem _ h)
    rw [this]
termination_by sizeOf t
decreasing_by
  all_goals simp_wf
  all_goals first
    | exact sizeOf_children_lt _
    | (simp only [HNode.mk.sizeOf_spec]; omega)
    | (simp only [List.cons.sizeOf_spec]; omega)
    | omega

theorem removeSubL_not_mem (x : Nat) (cs : List HNode) (hx : x ∉ allIdsL cs) :
    removeSubL x cs = cs := by
  match cs with
  | [] => rfl
  | c :: cs2 =>
    rw [removeSubL]
    have hxc : c.id ≠ x := by
      intro h
      exact hx (by rw [allIdsL, ← h]; exact List.mem_append_left _ (id_mem_allIds c))
    rw [if_neg hxc]
    have h1 : removeSub x c = c := by
      apply removeSub_not_mem
      intro h
      exact hx (by rw [allIdsL]; exact List.mem_append_left _ h)
    have h2 : removeSubL x cs2 = cs2 := by
      apply removeSubL_not_mem
      intro h
      exact hx (by rw [allIdsL]; exact List.mem_append_right _ h)
    rw [h1, h2]
termination_by sizeOf cs
decreasing_by
  all_goals simp_wf
  all_goals first
    | exact sizeOf_children_lt _
    | (simp only [HNode.mk.sizeOf_spec]; omega)
    | (simp only [List.cons.sizeOf_spec]; omega)
    | omega
end

theorem lastIdOf_ne (h : Nat) (cs : List HNode) :
    ∀ prev, (∀ c ∈ cs, c.id ≠ h) → (∀ q, prev = some q → q ≠ h) →
      lastIdOf cs prev ≠ some h := by
  induction cs with
  | nil =>
    intro prev _ hprev heq
    exact hprev h heq rfl
  | cons c cs2 ih =>
    intro prev hcs hprev
    rw [lastIdOf]
    apply ih (some c.id)
    · intro c2 hc2; exact hcs c2 (List.mem_cons_of_mem _ hc2)
    · intro q hq heq
      exact hcs c (List.mem_cons_self _ _) (by rw [← heq, Option.some_inj.mp hq])

theorem mem_allIdsL_decomp {j : Nat} {l : List HNode} (h : j ∈ allIdsL l) :
    ∃ d ∈ l, j ∈ allIds d := by
  induction l with
  | nil => rw [allIdsL] at h; exact absurd h (by simp)
  | cons d l2 ih =>
    rw [allIdsL] at h
    rcases List.mem_append.mp h with h1 | h1
    · exact ⟨d, List.mem_cons_self _ _, h1⟩
    · rcases ih h1 with ⟨d2, hd2, hj⟩
      exact ⟨d2, List.mem_cons_of_mem _ hd2, hj⟩

theorem describes_id {s : Store} {i : Nat} {t : HNode} (hd : describes s i t) :
    i = t.id := ((describes_def s i t).mp hd).1

/-- Congruence of `describes` under agreement on all identities of the
subtree. -/
theorem describes_congr_full (s s2 : Store) (i : Nat) (t : HNode)
    (hag : ∀ j ∈ allIds t, s2 j = s j) (hd : describes s i t) :
    describes s2 i t := by
  have hi : i = t.id := describes_id hd
  apply describes_congr s s2 i t
  · have : s2 i = s i := hag i (by rw [hi]; exact id_mem_allIds t)
    rw [this]
    exact ⟨rfl, rfl, rfl, rfl, rfl⟩
  · intro j hj
    apply hag
    rw [allIds_def]
    exact List.mem_cons_of_mem _ hj
  · exact hd

/-- Replacing one sibling subtree of a chain by a tree with the same root
identity described in the new store, when every other modification lies
strictly inside that subtree. -/
theorem descChain_update (s s2 : Store) (pid : Nat) (c c2 : HNode)
    (hid2 : c2.id = c.id)
    (hdesc2 : describes s2 c2.id c2)
    (hout : ∀ j, j ∉ allIds c → s2 j = s j)
    (hpar : (s2 c.id).parent = (s c.id).parent)
    (hprev : (s2 c.id).prevSibling = (s c.id).prevSibling)
    (hnext : (s2 c.id).nextSibling = (s c.id).nextSibling)
    (hlc : (s2 pid).lastChild = (s pid).lastChild) :
    ∀ (m1 m2 : List HNode) (cur prev : Option Nat),
      descChain s pid cur prev (m1 ++ c :: m2) →
      (∀ d ∈ m1, ∀ j ∈ allIds d, j ∉ allIds c) →
      (∀ d ∈ m2, ∀ j ∈ allIds d, j ∉ allIds c) →
      descChain s2 pid cur prev (m1 ++ c2 :: m2) := by
  intro m1
  induction m1 with
  | nil =>
    intro m2 cur prev hd hdis1 hdis2
    rw [List.nil_append, descChain.eq_2] at hd ⊢
    have hcc : s2 c2.id = s2 c.id := by rw [hid2]
    refine ⟨by rw [hid2]; exact hd.1, hdesc2, ?_, ?_, ?_⟩
    · rw [hcc, hpar]; exact hd.2.2.1
    · rw [hcc, hprev]; exact hd.2.2.2.1
    · rw [hcc, hnext, hid2]
      apply descChain_congr s s2 pid _ _ m2 _ hlc hd.2.2.2.2
      intro j hj
      rcases mem_allIdsL_decomp hj with ⟨d, hdm, hjd⟩
      exact hout j (hdis2 d hdm j hjd)
  | cons d m1x ih =>
    intro m2 cur prev hd hdis1 hdis2
    rw [List.cons_append, descChain.eq_2] at hd ⊢
    have hdid : d.id ∈ allIds d := id_mem_allIds d
    have hdout : s2 d.id = s d.id :=
      hout d.id (hdis1 d (List.mem_cons_self _ _) d.id hdid)
    refine ⟨hd.1, ?_, ?_, ?_, ?_⟩
    · apply describes_congr_full s s2 d.id d _ hd.2.1
      intro j hj
      exact hout j (hdis1 d (List.mem_cons_self _ _) j hj)
    · rw [hdout]; exact hd.2.2.1
    · rw [hdout]; exact hd.2.2.2.1
    · rw [hdout]
      apply ih m2 _ _ hd.2.2.2.2
      · intro d2 hd2; exact hdis1 d2 (List.mem_cons_of_mem _ hd2)
      · exact hdis2

theorem allIds_sub_allIdsL {c : HNode} {cs : List HNode} (hc : c ∈ cs) :
    ∀ j ∈ allIds c, j ∈ allIdsL cs := by
  induction cs with
  | nil => exact absurd hc (by simp)
  | cons c0 cs2 ih =>
    intro j hj
    simp only [allIdsL]
    rcases List.mem_cons.mp hc with h | h
    · subst h; exact List.mem_append_left _ hj
    · exact List.mem_append_right _ (ih h j hj)

theorem nodup_block {cs : List HNode} (hnd : (allIdsL cs).Nodup) :
    ∀ c ∈ cs, (allIds c).Nodup := by
  induction cs with
  | nil => intro c hc; exact absurd hc (by simp)
  | cons c0 cs2 ih =>
    rw [allIdsL] at hnd
    intro c hc
    rcases List.mem_cons.mp hc with h | h
    · subst h; exact hnd.of_append_left
    · exact ih hnd.of_append_right c h

theorem lastIdOf_mem (cs : List HNode) :
    ∀ p, cs ≠ [] → ∃ d ∈ cs, lastIdOf cs p = some d.id := by
  induction cs with
  | nil => intro p h; exact absurd rfl h
  | cons c cs2 ih =>
    intro p _
    rw [lastIdOf]
    cases cs2 with
    | nil => exact ⟨c, List.mem_cons_self _ _, by rw [lastIdOf]⟩
    | cons c2 cs3 =>
      rcases ih (some c.id) (by simp) with ⟨d, hd, he⟩
      exact ⟨d, List.mem_cons_of_mem _ hd, he⟩

theorem headIdOf_cases (l : List HNode) :
    headIdOf l = none ∨ ∃ d ∈ l, headIdOf l = some d.id := by
  cases l with
  | nil => exact Or.inl rfl
  | cons c cs => exact Or.inr ⟨c, List.mem_cons_self _ _, rfl⟩

/-- Removing the sibling `S` from a described chain: after the pointwise
surgery `afterRC s pid S.id`, the chain describes the same siblings without
`S`. -/
theorem descChain_remove (s : Store) (pid : Nat) (S : HNode) (l2 : List HNode) :
    ∀ (l1 : List HNode) (cur prev : Option Nat),
      descChain s pid cur prev (l1 ++ S :: l2) →
      (pid :: allIdsL (l1 ++ S :: l2)).Nodup →
      (∀ q, prev = some q → q ≠ pid ∧ q ∉ allIdsL (l1 ++ S :: l2)) →
      descChain (afterRC s pid S.id) pid
        (if l1.isEmpty then (s S.id).nextSibling else cur) prev (l1 ++ l2) := by
  intro l1
  induction l1 with
  | nil =>
    intro cur prev hd hnd hprev
    simp only [List.nil_append] at hd hnd hprev
    show descChain (afterRC s pid S.id) pid ((s S.id).nextSibling) prev ([] ++ l2)
    rw [List.nil_append]
    rw [descChain.eq_2] at hd
    obtain ⟨h1, h2, h3, h4, h5⟩ := hd
    rw [allIdsL] at hnd
    have hndt := List.nodup_cons.mp hnd
    have hpidS : pid ∉ allIds S := fun h => hndt.1 (List.mem_append_left _ h)
    have hpidl2 : pid ∉ allIdsL l2 := fun h => hndt.1 (List.mem_append_right _ h)
    have hdisj : ∀ a ∈ allIds S, a ∉ allIdsL l2 :=
      fun a ha => (List.disjoint_of_nodup_append hndt.2) ha
    have hSpid : S.id ≠ pid := fun h => hpidS (h ▸ id_mem_allIds S)
    have hSprev : ∀ j, (s S.id).prevSibling = some j → j ≠ pid ∧ j ∉ allIds S ∧ j ∉ allIdsL l2 := by
      intro j hj
      rw [h4] at hj
      rcases hprev j hj with ⟨hq1, hq2⟩
      rw [allIdsL] at hq2
      exact ⟨hq1, fun h => hq2 (List.mem_append_left _ h),
        fun h => hq2 (List.mem_append_right _ h)⟩
    cases l2 with
    | nil =>
      rw [descChain.eq_1] at h5
      rw [descChain.eq_1]
      refine ⟨h5.1, ?_⟩
      have hrc := afterRC_at_parent s pid S.id hSpid
        (by rw [h5.1]; simp)
        (by intro h; exact absurd rfl (hSprev pid h).1)
      rw [hrc]
      show (if (s pid).lastChild = some S.id then (s S.id).prevSibling
            else (s pid).lastChild) = prev
      rw [if_pos h5.2]
      exact h4
    | cons c2 cs2 =>
      rw [descChain.eq_2] at h5
      obtain ⟨h5a, h5b, h5c, h5d, h5e⟩ := h5
      have hc2S : c2.id ≠ S.id := by
        intro h
        have hm : c2.id ∈ allIdsL (c2 :: cs2) :=
          allIds_sub_allIdsL (List.mem_cons_self c2 cs2) c2.id (id_mem_allIds c2)
        rw [h] at hm
        exact hdisj S.id (id_mem_allIds S) hm
      have hc2pid : c2.id ≠ pid := by
        intro h
        have hm : c2.id ∈ allIdsL (c2 :: cs2) :=
          allIds_sub_allIdsL (List.mem_cons_self c2 cs2) c2.id (id_mem_allIds c2)
        rw [h] at hm
        exact hpidl2 hm
      have hrcx := afterRC_at_nx s pid S.id c2.id h5a hc2S hc2pid
      have hlcpres : (afterRC s pid S.id pid).lastChild = (s pid).lastChild := by
        have hrcp := afterRC_at_parent s pid S.id hSpid
          (by rw [h5a]; intro h; exact hc2pid (Option.some_inj.mp h))
          (by intro h; exact absurd rfl (hSprev pid h).1)
        rw [hrcp]
        have hlast := chain_last s pid cs2 _ _ h5e
        have hne : (s pid).lastChild ≠ some S.id := by
          rw [hlast]
          apply lastIdOf_ne
          · intro d hd hcontra
            have hm : d.id ∈ allIdsL (c2 :: cs2) :=
              allIds_sub_allIdsL (List.mem_cons_of_mem _ hd) d.id (id_mem_allIds d)
            rw [hcontra] at hm
            exact hdisj S.id (id_mem_allIds S) hm
          · intro q hq hcontra
            exact hc2S ((Option.some_inj.mp hq).trans hcontra)
        show (if (s pid).lastChild = some S.id then (s S.id).prevSibling
              else (s pid).lastChild) = (s pid).lastChild
        rw [if_neg hne]
      rw [descChain.eq_2]
      refine ⟨h5a, ?_, ?_, ?_, ?_⟩
      · apply describes_congr s (afterRC s pid S.id) c2.id c2 _ _ h5b
        · rw [hrcx]
          exact ⟨rfl, rfl, rfl, rfl, rfl⟩
        · intro j hj
          have hjc2 : j ∈ allIds c2 := by
            rw [allIds_def]; exact List.mem_cons_of_mem _ hj
          have hjl2 : j ∈ allIdsL (c2 :: cs2) :=
            allIds_sub_allIdsL (List.mem_cons_self c2 cs2) j hjc2
          apply afterRC_other
          · intro h; rw [h] at hjl2; exact hdisj S.id (id_mem_allIds S) hjl2
          · intro h; rw [h] at hjl2; exact hpidl2 hjl2
          · rw [h5a]
            intro h
            have hjc2id : c2.id = j := Option.some_inj.mp h
            have hndc2 : (allIds c2).Nodup :=
              nodup_block hndt.2.of_append_right c2 (List.mem_cons_self _ _)
            rw [allIds_def, List.nodup_cons] at hndc2
            rw [← hjc2id] at hj
            exact hndc2.1 hj
          · intro h
            exact (hSprev j h).2.2 hjl2
      · rw [hrcx]; exact h5c
      · rw [hrcx]; exact h4
      · have hnxa : (afterRC s pid S.id c2.id).nextSibling = (s c2.id).nextSibling := by
          rw [hrcx]
        rw [hnxa]
        apply descChain_congr s (afterRC s pid S.id) pid _ _ cs2 _ hlcpres h5e
        intro j hj
        have hjl2 : j ∈ allIdsL (c2 :: cs2) := by
          rw [allIdsL]; exact List.mem_append_right _ hj
        apply afterRC_other
        · intro h; rw [h] at hjl2; exact hdisj S.id (id_mem_allIds S) hjl2
        · intro h; rw [h] at hjl2; exact hpidl2 hjl2
        · rw [h5a]
          intro h
          rw [← Option.some_inj.mp h] at hj
          rw [allIdsL] at hndt
          have hnd2 : (allIds c2 ++ allIdsL cs2).Nodup := hndt.2.of_append_right
          exact (List.disjoint_of_nodup_append hnd2) (id_mem_allIds c2) hj
        · intro h
          exact (hSprev j h).2.2 hjl2
  | cons c0 rest ih =>
    intro cur prev hd hnd hprev
    show descChain (afterRC s pid S.id) pid cur prev ((c0 :: rest) ++ l2)
    simp only [List.cons_append] at hd hnd hprev ⊢
    rw [descChain.eq_2] at hd
    obtain ⟨hA, hB, hC, hD, hE⟩ := hd
    rw [allIdsL] at hnd
    have hndt := List.nodup_cons.mp hnd
    have hpidc0 : pid ∉ allIds c0 := fun h => hndt.1 (List.mem_append_left _ h)
    have hpidxs : pid ∉ allIdsL (rest ++ S :: l2) :=
      fun h => hndt.1 (List.mem_append_right _ h)
    have hndc0 : (allIds c0).Nodup := hndt.2.of_append_left
    have hndxs : (allIdsL (rest ++ S :: l2)).Nodup := hndt.2.of_append_right
    have hdisj0 : ∀ a ∈ allIds c0, a ∉ allIdsL (rest ++ S :: l2) :=
      fun a ha => (List.disjoint_of_nodup_append hndt.2) ha
    have hSmem : S.id ∈ allIdsL (rest ++ S :: l2) :=
      allIds_sub_allIdsL (List.mem_append_right _ (List.mem_cons_self S l2))
        S.id (id_mem_allIds S)
    have hc0S : c0.id ≠ S.id := by
      intro h
      apply hdisj0 c0.id (id_mem_allIds c0)
      rw [h]; exact hSmem
    have hc0pid : c0.id ≠ pid := fun h => hpidc0 (h ▸ id_mem_allIds c0)
    have hex := chain_extract s pid S l2 rest _ _ hE
    have hnxS : (s S.id).nextSibling = headIdOf l2 := hex.2.2.1
    have hpvS : (s S.id).prevSibling = lastIdOf rest (some c0.id) := hex.2.2.2
    have hnxS_ne : ∀ j ∈ allIds c0, (s S.id).nextSibling ≠ some j := by
      intro j hj
      rw [hnxS]
      cases l2 with
      | nil => simp [headIdOf]
      | cons d ds =>
        rw [headIdOf]
        intro h
        apply hdisj0 j hj
        rw [← Option.some_inj.mp h]
        exact allIds_sub_allIdsL
          (List.mem_append_right _ (List.mem_cons_of_mem _ (List.mem_cons_self d ds)))
          d.id (id_mem_allIds d)
    have hc0notch : c0.id ∉ allIdsL c0.children := by
      have hn := hndc0
      rw [allIds_def, List.nodup_cons] at hn
      exact hn.1
    have hpvS_ne_sub : ∀ j ∈ allIdsL c0.children, (s S.id).prevSibling ≠ some j := by
      intro j hj
      rw [hpvS]
      apply lastIdOf_ne
      · intro d hd hcontra
        apply hdisj0 j (by rw [allIds_def]; exact List.mem_cons_of_mem _ hj)
        rw [← hcontra]
        exact allIds_sub_allIdsL (List.mem_append_left _ hd) d.id (id_mem_allIds d)
      · intro q hq hcontra
        rw [← (Option.some_inj.mp hq).trans hcontra] at hj
        exact hc0notch hj
    have hnxc0 : (s S.id).nextSibling ≠ some c0.id := hnxS_ne c0.id (id_mem_allIds c0)
    have haf : afterRC s pid S.id c0.id =
        {s c0.id with nextSibling :=
          if rest.isEmpty then (s S.id).nextSibling else (s c0.id).nextSibling} := by
      cases rest with
      | nil =>
        have hpv : (s S.id).prevSibling = some c0.id := by rw [hpvS, lastIdOf]
        rw [afterRC_at_pv s pid S.id c0.id hpv hc0S hc0pid hnxc0]
        rfl
      | cons r0 rs =>
        have hpv : (s S.id).prevSibling ≠ some c0.id := by
          rw [hpvS]
          rcases lastIdOf_mem (r0 :: rs) (some c0.id) (by simp) with ⟨d, hd, hde⟩
          rw [hde]
          intro h
          apply hdisj0 c0.id (id_mem_allIds c0)
          rw [← Option.some_inj.mp h]
          exact allIds_sub_allIdsL (List.mem_append_left _ hd) d.id (id_mem_allIds d)
        rw [afterRC_other s pid S.id c0.id hc0S hc0pid hnxc0 hpv]
        rfl
    have hndih : (pid :: allIdsL (rest ++ S :: l2)).Nodup :=
      List.nodup_cons.mpr ⟨hpidxs, hndxs⟩
    have hprevih : ∀ q, some c0.id = some q →
        q ≠ pid ∧ q ∉ allIdsL (rest ++ S :: l2) := by
      intro q hq
      rw [← Option.some_inj.mp hq]
      exact ⟨hc0pid, hdisj0 c0.id (id_mem_allIds c0)⟩
    have hih := ih ((s c0.id).nextSibling) (some c0.id) hE hndih hprevih
    rw [descChain.eq_2]
    refine ⟨hA, ?_, ?_, ?_, ?_⟩
    · apply describes_congr s (afterRC s pid S.id) c0.id c0 _ _ hB
      · rw [haf]
        exact ⟨rfl, rfl, rfl, rfl, rfl⟩
      · intro j hj
        have hjc0 : j ∈ allIds c0 := by
          rw [allIds_def]; exact List.mem_cons_of_mem _ hj
        apply afterRC_other
        · intro h
          apply hdisj0 j hjc0
          rw [h]; exact hSmem
        · intro h; rw [h] at hjc0; exact hpidc0 hjc0
        · exact hnxS_ne j hjc0
        · exact hpvS_ne_sub j hj
    · rw [haf]; exact hC
    · rw [haf]; exact hD
    · have hnxa : (afterRC s pid S.id c0.id).nextSibling =
          (if rest.isEmpty then (s S.id).nextSibling else (s c0.id).nextSibling) := by
        rw [haf]
      rw [hnxa]
      exact hih

mutual
theorem removeSub_ids_sub (x : Nat) (t : HNode) :
    ∀ k ∈ allIds (removeSub x t), k ∈ allIds t := by
  match t with
  | .mk i ty d a cs =>
    intro k hk
    rw [removeSub] at hk
    rw [allIds] at hk ⊢
    rcases List.mem_cons.mp hk with h | h
    · rw [h]; exact List.mem_cons_self _ _
    · exact List.mem_cons_of_mem _ (removeSubL_ids_sub x cs k h)
termination_by sizeOf t
decreasing_by
  all_goals simp_wf
  all_goals first
    | exact sizeOf_children_lt _
    | (simp only [HNode.mk.sizeOf_spec]; omega)
    | (simp only [List.cons.sizeOf_spec]; omega)
    | omega

theorem removeSubL_ids_sub (x : Nat) (cs : List HNode) :
    ∀ k ∈ allIdsL (removeSubL x cs), k ∈ allIdsL cs := by
  match cs with
  | [] => intro k hk; rw [removeSubL] at hk; exact hk
  | c :: cs2 =>
    intro k hk
    rw [removeSubL] at hk
    rw [allIdsL]
    by_cases hc : c.id = x
    · rw [if_pos hc] at hk
      exact List.mem_append_right _ (removeSubL_ids_sub x cs2 k hk)
    · rw [if_neg hc] at hk
      rw [allIdsL] at hk
      rcases List.mem_append.mp hk with h | h
      · exact List.mem_append_left _ (removeSub_ids_sub x c k h)
      · exact List.mem_append_right _ (removeSubL_ids_sub x cs2 k h)
termination_by sizeOf cs
decreasing_by
  all_goals simp_wf
  all_goals first
    | exact sizeOf_children_lt _
    | (simp only [HNode.mk.sizeOf_spec]; omega)
    | (simp only [List.cons.sizeOf_spec]; omega)
    | omega
end

/-- Identities of a subtree occurring as a child of some node of `T` all lie
among the identities below `T`'s children. -/
theorem childin_allIds {S T : HNode} (h : ∃ n ∈ subNodes T, S ∈ n.children) :
    ∀ k ∈ allIds S, k ∈ allIdsL T.children := by
  rcases h with ⟨n, hn, hS⟩
  rw [subNodes_def] at hn
  intro k hk
  rcases List.mem_cons.mp hn with h1 | h1
  · subst h1
    exact allIds_sub_allIdsL hS k hk
  · rcases mem_subNodesL_iff.mp h1 with ⟨c, hc, hnc⟩
    have hkn : k ∈ allIds n := by
      rw [allIds_def]
      exact List.mem_cons_of_mem _ (allIds_sub_allIdsL hS k hk)
    exact allIds_sub_allIdsL hc k (allIds_subset_of_mem_subNodes c n hnc k hkn)

theorem childin_allIds_node {S c : HNode} (h : ∃ n ∈ subNodes c, S ∈ n.children) :
    ∀ k ∈ allIds S, k ∈ allIds c := by
  intro k hk
  rw [allIds_def]
  exact List.mem_cons_of_mem _ (childin_allIds h k hk)

mutual
/-- Under distinct identities, pruning the subtrees rooted at `S.id` removes
every identity of the child subtree `S` from the tree. -/
theorem removeSub_keeps_out (x : Nat) (t : HNode) (S : HNode)
    (hnd : (allIds t).Nodup) (hx : S.id = x)
    (hin : ∃ n ∈ subNodes t, S ∈ n.children) :
    ∀ k ∈ allIds S, k ∉ allIds (removeSub x t) := by
  match t with
  | .mk i ty d a cs =>
    intro k hk hmem
    rw [removeSub, allIds] at hmem
    rw [allIds] at hnd
    have hkcs : k ∈ allIdsL cs := childin_allIds hin k hk
    have hnd2 := List.nodup_cons.mp hnd
    rcases List.mem_cons.mp hmem with h1 | h1
    · rw [h1] at hkcs
      exact hnd2.1 hkcs
    · have hin2 : S ∈ cs ∨ ∃ c ∈ cs, ∃ n ∈ subNodes c, S ∈ n.children := by
        rcases hin with ⟨n, hn, hS⟩
        rw [subNodes_def] at hn
        rcases List.mem_cons.mp hn with h2 | h2
        · left; rw [h2] at hS; exact hS
        · right
          rcases mem_subNodesL_iff.mp h2 with ⟨c, hc, hnc⟩
          exact ⟨c, hc, n, hnc, hS⟩
      exact removeSubL_keeps_out x cs S hnd2.2 hx hin2 k hk h1
termination_by sizeOf t
decreasing_by
  all_goals simp_wf
  all_goals first
    | exact sizeOf_children_lt _
    | (simp only [HNode.mk.sizeOf_spec]; omega)
    | (simp only [List.cons.sizeOf_spec]; omega)
    | omega

theorem removeSubL_keeps_out (x : Nat) (cs : List HNode) (S : HNode)
    (hnd : (allIdsL cs).Nodup) (hx : S.id = x)
    (hin : S ∈ cs ∨ ∃ c ∈ cs, ∃ n ∈ subNodes c, S ∈ n.children) :
    ∀ k ∈ allIds S, k ∉ allIdsL (removeSubL x cs) := by
  match cs with
  | [] =>
    intro k hk hmem
    rcases hin with h | ⟨c, hc, _⟩
    · exact absurd h (by simp)
    · exact absurd hc (by simp)
  | c :: cs2 =>
    intro k hk hmem
    rw [removeSubL] at hmem
    rw [allIdsL] at hnd
    have hdisj := List.disjoint_of_nodup_append hnd
    have hsplit : (S = c ∨ ∃ n ∈ subNodes c, S ∈ n.children) ∨
        (S ∈ cs2 ∨ ∃ c2 ∈ cs2, ∃ n ∈ subNodes c2, S ∈ n.children) := by
      rcases hin with h | ⟨c2, hc2, n, hn, hS⟩
      · rcases List.mem_cons.mp h with h1 | h1
        · exact Or.inl (Or.inl h1)
        · exact Or.inr (Or.inl h1)
      · rcases List.mem_cons.mp hc2 with h1 | h1
        · exact Or.inl (Or.inr ⟨n, h1 ▸ hn, hS⟩)
        · exact Or.inr (Or.inr ⟨c2, h1, n, hn, hS⟩)
    have hkHead : (S = c ∨ ∃ n ∈ subNodes c, S ∈ n.children) → k ∈ allIds c := by
      intro h
      rcases h with h | h
      · rw [← h]; exact hk
      · exact childin_allIds_node h k hk
    have hkTail : (S ∈ cs2 ∨ ∃ c2 ∈ cs2, ∃ n ∈ subNodes c2, S ∈ n.children) →
        k ∈ allIdsL cs2 := by
      intro h
      rcases h with h | ⟨c2, hc2, hnn⟩
      · exact allIds_sub_allIdsL h k hk
      · exact allIds_sub_allIdsL hc2 k (childin_allIds_node hnn k hk)
    by_cases hcx : c.id = x
    · rw [if_pos hcx] at hmem
      rcases hsplit with h | h
      · exact hdisj (hkHead h) (removeSubL_ids_sub x cs2 k hmem)
      · exact removeSubL_keeps_out x cs2 S hnd.of_append_right hx h k hk hmem
    · rw [if_neg hcx] at hmem
      rw [allIdsL] at hmem
      rcases List.mem_append.mp hmem with hm | hm
      · rcases hsplit with h | h
        · rcases h with h | h
          · exact hcx (by rw [← h, hx])
          · exact removeSub_keeps_out x c S hnd.of_append_left hx h k hk hm
        · exact hdisj (removeSub_ids_sub x c k hm) (hkTail h)
      · rcases hsplit with h | h
        · exact hdisj (hkHead h) (removeSubL_ids_sub x cs2 k hm)
        · exact removeSubL_keeps_out x cs2 S hnd.of_append_right hx h k hk hm
termination_by sizeOf cs
decreasing_by
  all_goals simp_wf
  all_goals first
    | exact sizeOf_children_lt _
    | (simp only [HNode.mk.sizeOf_spec]; omega)
    | (simp only [List.cons.sizeOf_spec]; omega)
    | omega
end

theorem subNodes_trans (T : HNode) :
    ∀ n ∈ subNodes T, ∀ u ∈ subNodes n, u ∈ subNodes T := by
  induction T with
  | _ i ty d a cs ih =>
    intro n hn u hu
    rw [subNodes_def] at hn
    simp only [HNode.children] at hn
    rcases List.mem_cons.mp hn with h | h
    · rw [← h]; exact hu
    · rcases mem_subNodesL_iff.mp h with ⟨c, hc, hnc⟩
      rw [subNodes_def]
      simp only [HNode.children]
      exact List.mem_cons_of_mem _ (mem_subNodesL_iff.mpr ⟨c, hc, ih c hc n hnc u hu⟩)

theorem child_mem_subNodes {S n : HNode} (h : S ∈ n.children) : S ∈ subNodes n := by
  rw [subNodes_def]
  apply List.mem_cons_of_mem
  exact mem_subNodesL_iff.mpr
    ⟨S, h, by rw [subNodes_def]; exact List.mem_cons_self _ _⟩

/-- A described tree describes each of its subtrees at that subtree's
identity. -/
theorem describes_sub (T : HNode) :
    ∀ s, describes s T.id T → ∀ n ∈ subNodes T, describes s n.id n := by
  induction T with
  | _ i ty d a cs ih =>
    intro s hd n hn
    rw [subNodes_def] at hn
    simp only [HNode.children] at hn
    rcases List.mem_cons.mp hn with h | h
    · rw [h]; exact hd
    · rcases mem_subNodesL_iff.mp h with ⟨c, hc, hnc⟩
      simp only [HNode.id] at hd
      rw [describes.eq_1] at hd
      have hdc : describes s c.id c := (chain_mem s i cs _ _ hd.2.2.2.2 c hc).1
      exact ih c hc s hdc n hnc

theorem nodup_sub (T : HNode) :
    (allIds T).Nodup → ∀ n ∈ subNodes T, (allIds n).Nodup := by
  induction T with
  | _ i ty d a cs ih =>
    intro hnd n hn
    rw [subNodes_def] at hn
    simp only [HNode.children] at hn
    rcases List.mem_cons.mp hn with h | h
    · rw [h]; exact hnd
    · rcases mem_subNodesL_iff.mp h with ⟨c, hc, hnc⟩
      rw [allIds] at hnd
      exact ih c hc (nodup_block (List.nodup_cons.mp hnd).2 c hc) n hnc

theorem removeSubL_append (x : Nat) (l1 l2 : List HNode) :
    removeSubL x (l1 ++ l2) = removeSubL x l1 ++ removeSubL x l2 := by
  induction l1 with
  | nil => rw [List.nil_append, removeSubL, List.nil_append]
  | cons c cs ih =>
    simp only [List.cons_append, removeSubL]
    by_cases hc : c.id = x
    · rw [if_pos hc, if_pos hc]; exact ih
    · rw [if_neg hc, if_neg hc, List.cons_append]
      exact congrArg _ ih

/-- Core of C5: when `S` sits in the child list of the node `pid` somewhere
inside the described tree `T`, the pointer surgery `afterRC s pid S.id`
makes the store describe the pruned tree `removeSub S.id T`, leaves every
identity outside `T` untouched, and keeps the root's own links. -/
theorem describes_remove (T : HNode) :
    ∀ (s : Store) (S : HNode) (pid : Nat),
      describes s T.id T →
      (allIds T).Nodup →
      (∃ n ∈ subNodes T, n.id = pid ∧ S ∈ n.children) →
      describes (afterRC s pid S.id) T.id (removeSub S.id T) ∧
      (∀ j, j ∉ allIds T → afterRC s pid S.id j = s j) ∧
      ((afterRC s pid S.id T.id).parent = (s T.id).parent ∧
       (afterRC s pid S.id T.id).prevSibling = (s T.id).prevSibling ∧
       (afterRC s pid S.id T.id).nextSibling = (s T.id).nextSibling) := by
  induction T with
  | _ i ty d a cs ihg =>
    intro s S pid hd hnd hin
    have hdi : (HNode.mk i ty d a cs).id = i := rfl
    have hchld : (HNode.mk i ty d a cs).children = cs := rfl
    rw [hdi] at hd
    show describes (afterRC s pid S.id) i (removeSub S.id (HNode.mk i ty d a cs)) ∧
      (∀ j, j ∉ allIds (HNode.mk i ty d a cs) → afterRC s pid S.id j = s j) ∧
      ((afterRC s pid S.id i).parent = (s i).parent ∧
       (afterRC s pid S.id i).prevSibling = (s i).prevSibling ∧
       (afterRC s pid S.id i).nextSibling = (s i).nextSibling)
    rw [describes.eq_1] at hd
    obtain ⟨-, hty, hda, hat, hch⟩ := hd
    rw [allIds] at hnd
    have hnd2 := List.nodup_cons.mp hnd
    rcases hin with ⟨n, hn, hpid, hS⟩
    rw [subNodes_def] at hn
    rw [hchld] at hn
    rcases List.mem_cons.mp hn with hcase | hcase
    · -- the parent is the root itself: S is a direct child of the root
      subst hcase
      rw [hdi] at hpid
      rw [hchld] at hS
      subst hpid
      rcases List.append_of_mem hS with ⟨l1, l2, hsplit⟩
      subst hsplit
      have hex := chain_extract s i S l2 l1 _ _ hch
      have hndL := hnd2.2
      rw [allIdsL_append] at hndL
      rw [allIdsL] at hndL
      have hdisj1 := List.disjoint_of_nodup_append hndL
      have hndSl2 : (allIds S ++ allIdsL l2).Nodup := hndL.of_append_right
      have hdisjS2 := List.disjoint_of_nodup_append hndSl2
      have hSid_mem : S.id ∈ allIds S := id_mem_allIds S
      have hSi : S.id ≠ i := by
        intro h
        apply hnd2.1
        rw [← h, allIdsL_append, allIdsL]
        exact List.mem_append_right _ (List.mem_append_left _ hSid_mem)
      have hnx_mem : ∀ x, (s S.id).nextSibling = some x → x ∈ allIdsL l2 := by
        intro x hx
        rw [hex.2.2.1] at hx
        cases l2 with
        | nil => simp [headIdOf] at hx
        | cons e es =>
          rw [headIdOf] at hx
          rw [← Option.some_inj.mp hx]
          exact allIds_sub_allIdsL (List.mem_cons_self e es) e.id (id_mem_allIds e)
      have hpv_mem : ∀ y, (s S.id).prevSibling = some y → y ∈ allIdsL l1 := by
        intro y hy
        rw [hex.2.2.2] at hy
        cases l1 with
        | nil => rw [lastIdOf] at hy; exact absurd hy (by simp)
        | cons r rs =>
          rcases lastIdOf_mem (r :: rs) none (by simp) with ⟨e, he, hee⟩
          rw [hee] at hy
          rw [← Option.some_inj.mp hy]
          exact allIds_sub_allIdsL he e.id (id_mem_allIds e)
      have hframe : ∀ j, j ∉ allIds (HNode.mk i ty d a (l1 ++ S :: l2)) →
          afterRC s i S.id j = s j := by
        intro j hj
        rw [allIds] at hj
        have hj2 : j ∉ allIdsL (l1 ++ S :: l2) :=
          fun h => hj (List.mem_cons_of_mem _ h)
        have hji : j ≠ i := fun h => hj (by rw [h]; exact List.mem_cons_self _ _)
        apply afterRC_other
        · intro h
          apply hj2
          rw [h, allIdsL_append, allIdsL]
          exact List.mem_append_right _ (List.mem_append_left _ hSid_mem)
        · exact hji
        · intro h
          apply hj2
          rw [allIdsL_append, allIdsL]
          exact List.mem_append_right _ (List.mem_append_right _ (hnx_mem j h))
        · intro h
          apply hj2
          rw [allIdsL_append]
          exact List.mem_append_left _ (hpv_mem j h)
      have hSnxi : (s S.id).nextSibling ≠ some i := by
        intro h
        apply hnd2.1
        rw [allIdsL_append, allIdsL]
        exact List.mem_append_right _ (List.mem_append_right _ (hnx_mem i h))
      have hSpvi : (s S.id).prevSibling ≠ some i := by
        intro h
        apply hnd2.1
        rw [allIdsL_append]
        exact List.mem_append_left _ (hpv_mem i h)
      have hrcp := afterRC_at_parent s i S.id hSi hSnxi hSpvi
      have hl1id : removeSubL S.id l1 = l1 := by
        apply removeSubL_not_mem
        intro h
        exact hdisj1 h (List.mem_append_left _ hSid_mem)
      have hl2id : removeSubL S.id l2 = l2 := by
        apply removeSubL_not_mem
        intro h
        exact hdisjS2 hSid_mem h
      have hremL : removeSubL S.id (l1 ++ S :: l2) = l1 ++ l2 := by
        rw [removeSubL_append, hl1id, removeSubL, if_pos rfl, hl2id]
      refine ⟨?_, hframe, by rw [hrcp]; exact ⟨rfl, rfl, rfl⟩⟩
      rw [removeSub, hremL, describes.eq_1]
      refine ⟨rfl, ?_, ?_, ?_, ?_⟩
      · rw [(afterRC_content s i S.id i).1]; exact hty
      · rw [(afterRC_content s i S.id i).2.1]; exact hda
      · rw [(afterRC_content s i S.id i).2.2]; exact hat
      · have hmain := descChain_remove s i S l2 l1 ((s i).firstChild) none hch hnd
          (by intro q hq; exact absurd hq (by simp))
        have hfc : (afterRC s i S.id i).firstChild =
            (if l1.isEmpty then (s S.id).nextSibling else (s i).firstChild) := by
          rw [hrcp]
          show (if (s i).firstChild = some S.id then (s S.id).nextSibling
                else (s i).firstChild) = _
          have hstart := chain_start s i (l1 ++ S :: l2) _ _ hch
          cases l1 with
          | nil =>
            rw [List.nil_append, headIdOf] at hstart
            rw [if_pos hstart]
            rfl
          | cons r rs =>
            rw [List.cons_append, headIdOf] at hstart
            have hrS : r.id ≠ S.id := by
              intro h
              apply hdisj1 (allIds_sub_allIdsL (List.mem_cons_self r rs) r.id (id_mem_allIds r))
              rw [h]
              exact List.mem_append_left _ hSid_mem
            rw [if_neg (by rw [hstart]; intro h; exact hrS (Option.some_inj.mp h))]
            rfl
        rw [hfc]
        exact hmain
    · -- the parent sits strictly inside one child subtree of the root
      rcases mem_subNodesL_iff.mp hcase with ⟨c0, hc0, hnc0⟩
      rcases List.append_of_mem hc0 with ⟨m1, m2, hsplit⟩
      subst hsplit
      have hdc0 : describes s c0.id c0 := (chain_mem s i _ _ _ hch c0 hc0).1
      have hndc0 : (allIds c0).Nodup := nodup_block hnd2.2 c0 hc0
      obtain ⟨ihd, ihframe, ihG2⟩ :=
        ihg c0 hc0 s S pid hdc0 hndc0 ⟨n, hnc0, hpid, hS⟩
      have hSsubc0 : ∀ k ∈ allIds S, k ∈ allIds c0 :=
        childin_allIds_node ⟨n, hnc0, hS⟩
      have hSid_mem : S.id ∈ allIds S := id_mem_allIds S
      have hc0_in_cs : ∀ k ∈ allIds c0, k ∈ allIdsL (m1 ++ c0 :: m2) :=
        allIds_sub_allIdsL hc0
      have hi_not_c0 : i ∉ allIds c0 := fun h => hnd2.1 (hc0_in_cs i h)
      have hs2i : afterRC s pid S.id i = s i := ihframe i hi_not_c0
      have hndL := hnd2.2
      rw [allIdsL_append] at hndL
      rw [allIdsL] at hndL
      have hSm1 : S.id ∉ allIdsL m1 := by
        intro h
        exact (List.disjoint_of_nodup_append hndL) h
          (List.mem_append_left _ (hSsubc0 S.id hSid_mem))
      have hSm2 : S.id ∉ allIdsL m2 := by
        intro h
        exact (List.disjoint_of_nodup_append hndL.of_append_right)
          (hSsubc0 S.id hSid_mem) h
      have hc0S : ¬ c0.id = S.id := by
        intro h
        have hSch : S.id ∈ allIdsL c0.children :=
          childin_allIds ⟨n, hnc0, hS⟩ S.id hSid_mem
        have hn2 := hndc0
        rw [allIds_def, List.nodup_cons] at hn2
        rw [← h] at hSch
        exact hn2.1 hSch
      have hremL : removeSubL S.id (m1 ++ c0 :: m2) =
          m1 ++ removeSub S.id c0 :: m2 := by
        rw [removeSubL_append, removeSubL_not_mem _ _ hSm1, removeSubL,
          if_neg hc0S, removeSubL_not_mem _ _ hSm2]
      have hdis1 : ∀ e ∈ m1, ∀ j ∈ allIds e, j ∉ allIds c0 := by
        intro e he j hj hjc
        exact (List.disjoint_of_nodup_append hndL)
          (allIds_sub_allIdsL he j hj) (List.mem_append_left _ hjc)
      have hdis2 : ∀ e ∈ m2, ∀ j ∈ allIds e, j ∉ allIds c0 := by
        intro e he j hj hjc
        exact (List.disjoint_of_nodup_append hndL.of_append_right)
          hjc (allIds_sub_allIdsL he j hj)
      refine ⟨?_, ?_, by rw [hs2i], by rw [hs2i], by rw [hs2i]⟩
      · rw [removeSub, hremL, describes.eq_1]
        refine ⟨rfl, by rw [hs2i]; exact hty, by rw [hs2i]; exact hda,
          by rw [hs2i]; exact hat, ?_⟩
        have hupd := descChain_update s (afterRC s pid S.id) i c0 (removeSub S.id c0)
          (removeSub_root S.id c0).1
          (by rw [(removeSub_root S.id c0).1]; exact ihd)
          ihframe ihG2.1 ihG2.2.1 ihG2.2.2
          (by rw [hs2i])
          m1 m2 ((s i).firstChild) none hch hdis1 hdis2
        rw [hs2i]
        exact hupd
      · intro j hj
        apply ihframe
        intro h
        apply hj
        rw [allIds]
        exact List.mem_cons_of_mem _ (hc0_in_cs j h)

/-- Top-level unwrap effect on a described tree: `Unwrap` on the child `S`
of node `n` succeeds, yielding exactly the pointwise-surgered store, which
describes the pruned tree, still describes `S` itself, leaves `S`
parentless, touches nothing outside `T`, and changes no node's kind, data
or attributes. -/
theorem unwrap_tree (s : Store) (T S n : HNode)
    (hd : describes s T.id T) (hnd : (allIds T).Nodup)
    (hn : n ∈ subNodes T) (hS : S ∈ n.children) :
    Tag.UnwrapS s S.id = some (afterRC s n.id S.id) ∧
    describes (afterRC s n.id S.id) T.id (removeSub S.id T) ∧
    describes (afterRC s n.id S.id) S.id S ∧
    (afterRC s n.id S.id S.id).parent = none ∧
    (∀ j, j ∉ allIds T → afterRC s n.id S.id j = s j) ∧
    (∀ j, (afterRC s n.id S.id j).ntype = (s j).ntype ∧
      (afterRC s n.id S.id j).data = (s j).data ∧
      (afterRC s n.id S.id j).attr = (s j).attr) := by
  have hdn : describes s n.id n := describes_sub T s hd n hn
  have hndn : (allIds n).Nodup := nodup_sub T hnd n hn
  rcases List.append_of_mem hS with ⟨l1, l2, hsplit⟩
  rw [describes_def] at hdn
  have hch := hdn.2.2.2.2
  rw [hsplit] at hch
  have hndn2 := hndn
  rw [allIds_def, hsplit] at hndn2
  have hnd2 := List.nodup_cons.mp hndn2
  have hndL := hnd2.2
  rw [allIdsL_append] at hndL
  rw [allIdsL] at hndL
  have hdisj1 := List.disjoint_of_nodup_append hndL
  have hdisjS2 := List.disjoint_of_nodup_append hndL.of_append_right
  have hSid_mem : S.id ∈ allIds S := id_mem_allIds S
  have hex := chain_extract s n.id S l2 l1 _ _ hch
  have hSn : S.id ≠ n.id := by
    intro h
    apply hnd2.1
    rw [← h, allIdsL_append, allIdsL]
    exact List.mem_append_right _ (List.mem_append_left _ hSid_mem)
  have hnx_mem : ∀ x, (s S.id).nextSibling = some x → x ∈ allIdsL l2 := by
    intro x hx
    rw [hex.2.2.1] at hx
    cases l2 with
    | nil => simp [headIdOf] at hx
    | cons e es =>
      rw [headIdOf] at hx
      rw [← Option.some_inj.mp hx]
      exact allIds_sub_allIdsL (List.mem_cons_self e es) e.id (id_mem_allIds e)
  have hpv_mem : ∀ y, (s S.id).prevSibling = some y → y ∈ allIdsL l1 := by
    intro y hy
    rw [hex.2.2.2] at hy
    cases l1 with
    | nil => rw [lastIdOf] at hy; exact absurd hy (by simp)
    | cons r rs =>
      rcases lastIdOf_mem (r :: rs) none (by simp) with ⟨e, he, hee⟩
      rw [hee] at hy
      rw [← Option.some_inj.mp hy]
      exact allIds_sub_allIdsL he e.id (id_mem_allIds e)
  have hnxc : (s S.id).nextSibling ≠ some S.id := by
    intro h
    exact hdisjS2 hSid_mem (hnx_mem S.id h)
  have hnxn : (s S.id).nextSibling ≠ some n.id := by
    intro h
    apply hnd2.1
    rw [allIdsL_append, allIdsL]
    exact List.mem_append_right _ (List.mem_append_right _ (hnx_mem n.id h))
  have hpvc : (s S.id).prevSibling ≠ some S.id := by
    intro h
    exact hdisj1 (hpv_mem S.id h) (List.mem_append_left _ hSid_mem)
  have hpvn : (s S.id).prevSibling ≠ some n.id := by
    intro h
    apply hnd2.1
    rw [allIdsL_append]
    exact List.mem_append_left _ (hpv_mem n.id h)
  have hnxpv : ∀ x, (s S.id).nextSibling = some x →
      (s S.id).prevSibling ≠ some x := by
    intro x hx hy
    exact hdisj1 (hpv_mem x hy) (List.mem_append_right _ (hnx_mem x hx))
  have hrc := removeChild_eq s n.id S.id hex.2.1 hSn hnxc hnxn hpvc hpvn hnxpv
  have hun : Tag.UnwrapS s S.id = some (afterRC s n.id S.id) := by
    simp only [Tag.UnwrapS, hex.2.1]
    exact hrc
  have hmain := describes_remove T s S n.id hd hnd ⟨n, hn, rfl, hS⟩
  have hSsub : S ∈ subNodes T := subNodes_trans T n hn S (child_mem_subNodes hS)
  have hndS : (allIds S).Nodup := nodup_sub T hnd S hSsub
  have hSdesc : describes (afterRC s n.id S.id) S.id S := by
    apply describes_congr s _ S.id S
    · rw [afterRC_self]
      exact ⟨rfl, rfl, rfl, rfl, rfl⟩
    · intro j hj
      have hjS : j ∈ allIds S := by
        rw [allIds_def]; exact List.mem_cons_of_mem _ hj
      apply afterRC_other
      · intro h
        have hndS2 := hndS
        rw [allIds_def, List.nodup_cons] at hndS2
        rw [h] at hj
        exact hndS2.1 hj
      · intro h
        apply hnd2.1
        rw [← h, allIdsL_append, allIdsL]
        exact List.mem_append_right _ (List.mem_append_left _ hjS)
      · intro h
        exact hdisjS2 hjS (hnx_mem j h)
      · intro h
        exact hdisj1 (hpv_mem j h) (List.mem_append_left _ hjS)
    · exact hex.1
  refine ⟨hun, hmain.1, hSdesc, by rw [afterRC_self], hmain.2.1, ?_⟩
  intro j
  exact afterRC_content s n.id S.id j

/-- C5: for a handle on a node `S` that has a parent (`S` sits in the child
list of a node `n` of the described tree `T`), `Unwrap` succeeds; afterwards
the handle's parent link is absent, the store describes the pruned tree
`removeSub S.id T` (the former parent and every former ancestor among its
nodes), no `Find`/`FindAll` run from any node of the pruned tree can return a
handle whose node is `S` or one of `S`'s descendants, `S` itself stays fully
described (readable name, attributes and subtree), every node keeps its kind,
data and attributes, and nothing outside `T`'s identities is touched. -/
theorem claim_C5_unwrap_frame (s : Store) (T S n : HNode)
    (hd : describes s T.id T) (hnd : (allIds T).Nodup)
    (hn : n ∈ subNodes T) (hS : S ∈ n.children) :
    ∃ s2, Tag.UnwrapS s S.id = some s2 ∧
      (s2 S.id).parent = none ∧
      describes s2 T.id (removeSub S.id T) ∧
      (∀ u ∈ subNodes (removeSub S.id T), ∀ p : Predicate HNode,
        (∀ r ∈ Tag.FindAll (newTag u) p, ∀ k ∈ allIds r.node, k ∉ allIds S) ∧
        (∀ r, Tag.Find (newTag u) p = some r → ∀ k ∈ allIds r.node, k ∉ allIds S)) ∧
      describes s2 S.id S ∧
      (∀ j, (s2 j).ntype = (s j).ntype ∧ (s2 j).data = (s j).data ∧
        (s2 j).attr = (s j).attr) ∧
      (∀ j, j ∉ allIds T → s2 j = s j) := by
  obtain ⟨hun, hdesc, hSdesc, hpar, hframe, hcontent⟩ :=
    unwrap_tree s T S n hd hnd hn hS
  refine ⟨afterRC s n.id S.id, hun, hpar, hdesc, ?_, hSdesc, hcontent, hframe⟩
  have hkeep : ∀ k ∈ allIds S, k ∉ allIds (removeSub S.id T) :=
    removeSub_keeps_out S.id T S hnd rfl ⟨n, hn, hS⟩
  intro u hu p
  have hres : ∀ r : Tag HNode, r.node ∈ subNodes u →
      ∀ k ∈ allIds r.node, k ∉ allIds S := by
    intro r hr k hk hkS
    have hkU : k ∈ allIds u :=
      allIds_subset_of_mem_subNodes u r.node hr k hk
    have hkT : k ∈ allIds (removeSub S.id T) :=
      allIds_subset_of_mem_subNodes (removeSub S.id T) u hu k hkU
    exact hkeep k hkS hkT
  constructor
  · intro r hr
    apply hres r
    have hv : r ∈ visitT (createDummy (newTag u).node) := by
      have h2 := hr
      rw [Tag.FindAll, findAllT_eq_filter] at h2
      exact (List.mem_filter.mp h2).1
    exact visitT_node_mem _ r hv
  · intro r hr
    apply hres r
    rw [Tag.Find, findT_eq_find?] at hr
    exact visitT_node_mem _ r (List.mem_of_find?_eq_some hr)

/-- Witness subtree for C5: a `span` child. -/
def c5S : HNode := .mk 1 .elementN "span" [] []

/-- Witness sibling for C5. -/
def c5B : HNode := .mk 2 .elementN "b" [] []

/-- Witness tree for C5: `<div><span/><b/></div>`. -/
def c5T : HNode := .mk 0 .elementN "div" [] [c5S, c5B]

/-- Witness store for C5, describing `c5T` at node 0. -/
def c5store : Store := fun j =>
  if j = 0 then
    { ntype := NType.elementN, data := "div", attr := [],
      firstChild := some 1, lastChild := some 2 }
  else if j = 1 then
    { ntype := NType.elementN, data := "span", attr := [],
      parent := some 0, nextSibling := some 2 }
  else if j = 2 then
    { ntype := NType.elementN, data := "b", attr := [],
      parent := some 0, prevSibling := some 1 }
  else {}

theorem claim_C5_unwrap_frame_witness :
    ∃ s2, Tag.UnwrapS c5store c5S.id = some s2 ∧
      (s2 c5S.id).parent = none ∧
      describes s2 c5T.id (removeSub c5S.id c5T) ∧
      (∀ u ∈ subNodes (removeSub c5S.id c5T), ∀ p : Predicate HNode,
        (∀ r ∈ Tag.FindAll (newTag u) p, ∀ k ∈ allIds r.node, k ∉ allIds c5S) ∧
        (∀ r, Tag.Find (newTag u) p = some r → ∀ k ∈ allIds r.node, k ∉ allIds c5S)) ∧
      describes s2 c5S.id c5S ∧
      (∀ j, (s2 j).ntype = (c5store j).ntype ∧ (s2 j).data = (c5store j).data ∧
        (s2 j).attr = (c5store j).attr) ∧
      (∀ j, j ∉ allIds c5T → s2 j = c5store j) := by
  apply claim_C5_unwrap_frame c5store c5T c5S c5T
  · rw [describes_def]
    refine ⟨rfl, rfl, rfl, rfl, ?_⟩
    show descChain c5store c5T.id (c5store c5T.id).firstChild none [c5S, c5B]
    rw [descChain.eq_2]
    refine ⟨rfl, ?_, rfl, rfl, ?_⟩
    · rw [describes_def]
      refine ⟨rfl, rfl, rfl, rfl, ?_⟩
      show descChain c5store c5S.id (c5store c5S.id).firstChild none []
      rw [descChain.eq_1]
      exact ⟨rfl, rfl⟩
    · rw [descChain.eq_2]
      refine ⟨rfl, ?_, rfl, rfl, ?_⟩
      · rw [describes_def]
        refine ⟨rfl, rfl, rfl, rfl, ?_⟩
        show descChain c5store c5B.id (c5store c5B.id).firstChild none []
        rw [descChain.eq_1]
        exact ⟨rfl, rfl⟩
      · rw [descChain.eq_1]
        exact ⟨rfl, rfl⟩
  · have h1 : allIds c5T = [0, 1, 2] := by
      simp [c5T, c5S, c5B, allIds, allIdsL]
    rw [h1]
    decide
  · rw [subNodes_def]
    exact List.mem_cons_self _ _
  · exact List.mem_cons_self _ _

/-- A handle of the cached `Document` version (`part_000`): the `Tag` struct
with its allocation identity (`ptr` models the Go pointer returned by `&Tag{...}`),
name, attributes, underlying node and owning document (`doc` field). -/
structure DTag where
  ptr : Nat
  Name : String
  Attrs : List (String × String)
  node : Nat
  docId : Nat
  deriving DecidableEq, Repr

/-- Lookup `doc.cache[node]` in the cache modelled as an association list
(later insertions in front). -/
def cLook (cache : List (Nat × DTag)) (n : Nat) : Option DTag :=
  (cache.find? (fun e => e.1 == n)).map Prod.snd

/-- `Document.newTag` of `part_000`, statement by statement: nil guard,
non-element guard, cache hit, and otherwise allocation of a fresh handle
(fresh pointer = allocation counter) that is inserted into the cache. -/
def matDoc (s : Store) (di counter : Nat) (cache : List (Nat × DTag))
    (x : Option Nat) : Option DTag × Nat × List (Nat × DTag) :=
  match x with
  | none => (none, counter, cache)
  | some n =>
    if (s n).ntype ≠ NType.elementN then (none, counter, cache)
    else
      match cLook cache n with
      | some t => (some t, counter, cache)
      | none =>
        ((some ⟨counter, (s n).data, goAttrs (s n).attr, n, di⟩), counter + 1,
          (n, ⟨counter, (s n).data, goAttrs (s n).attr, n, di⟩) :: cache)

/-- Shared state of two live documents: the global allocation counter and the
two caches. -/
structure MState where
  counter : Nat
  cache1 : List (Nat × DTag)
  cache2 : List (Nat × DTag)
  deriving Repr

/-- One materialisation step: a navigation or search operation of document 1
or document 2 reaching `Document.newTag` with some (or no) node. -/
inductive MOp where
  | mat1 (x : Option Nat)
  | mat2 (x : Option Nat)

def stepM (s1 s2 : Store) (st : MState) : MOp → MState
  | .mat1 x =>
    ⟨(matDoc s1 1 st.counter st.cache1 x).2.1,
     (matDoc s1 1 st.counter st.cache1 x).2.2, st.cache2⟩
  | .mat2 x =>
    ⟨(matDoc s2 2 st.counter st.cache2 x).2.1, st.cache1,
     (matDoc s2 2 st.counter st.cache2 x).2.2⟩

def runM (s1 s2 : Store) (st : MState) : List MOp → MState
  | [] => st
  | op :: ops => runM s1 s2 (stepM s1 s2 st op) ops

/-- Well-formedness of the two-document state: every cached handle has a
pointer below the counter, sits at its own node key, carries its document,
its node is element-typed, and no handle pointer is shared between the two
documents. -/
def Inv (s1 s2 : Store) (st : MState) : Prop :=
  (∀ e ∈ st.cache1, e.2.ptr < st.counter ∧ e.2.node = e.1 ∧ e.2.docId = 1 ∧
    (s1 e.1).ntype = NType.elementN) ∧
  (∀ e ∈ st.cache2, e.2.ptr < st.counter ∧ e.2.node = e.1 ∧ e.2.docId = 2 ∧
    (s2 e.1).ntype = NType.elementN) ∧
  (∀ e1 ∈ st.cache1, ∀ e2 ∈ st.cache2, e1.2.ptr ≠ e2.2.ptr)

theorem cLook_mem {cache : List (Nat × DTag)} {n : Nat} {t : DTag}
    (h : cLook cache n = some t) : (n, t) ∈ cache := by
  unfold cLook at h
  rcases Option.map_eq_some'.mp h with ⟨e, he, het⟩
  have hmem := List.mem_of_find?_eq_some he
  have hpred := List.find?_some he
  have h1 : e.1 = n := by simpa using hpred
  cases e with
  | mk a b =>
    simp only at h1 het
    rw [h1, het] at hmem
    exact hmem

theorem cLook_cons_ne {cache : List (Nat × DTag)} {m n : Nat} {u : DTag}
    (hmn : m ≠ n) : cLook ((m, u) :: cache) n = cLook cache n := by
  unfold cLook
  rw [List.find?_cons_of_neg]
  simp [hmn]

/-- A cached node is rematerialised as the identical handle with no state
change. -/
theorem matDoc_cached (s : Store) (di counter : Nat) (cache : List (Nat × DTag))
    (n : Nat) (t : DTag) (ht : cLook cache n = some t)
    (hel : (s n).ntype = NType.elementN) :
    matDoc s di counter cache (some n) = (some t, counter, cache) := by
  simp [matDoc, ht, hel]

/-- One step never removes a cache entry of document 1: the lookup keeps
returning the same handle. -/
theorem cLook_step1 (s1 s2 : Store) (st : MState) (op : MOp) (n : Nat) (t : DTag)
    (ht : cLook st.cache1 n = some t) :
    cLook (stepM s1 s2 st op).cache1 n = some t := by
  cases op with
  | mat2 x => exact ht
  | mat1 x =>
    cases x with
    | none => exact ht
    | some m =>
      show cLook (matDoc s1 1 st.counter st.cache1 (some m)).2.2 n = some t
      simp only [matDoc]
      by_cases hel : (s1 m).ntype ≠ NType.elementN
      · rw [if_pos hel]; exact ht
      · rw [if_neg hel]
        cases hm : cLook st.cache1 m with
        | some u => exact ht
        | none =>
          have hmn : m ≠ n := by
            intro h
            rw [h, ht] at hm
            exact Option.noConfusion hm
          rw [cLook_cons_ne hmn]
          exact ht

theorem cLook_run1 (s1 s2 : Store) (st : MState) (ops : List MOp) (n : Nat) (t : DTag)
    (ht : cLook st.cache1 n = some t) :
    cLook (runM s1 s2 st ops).cache1 n = some t := by
  induction ops generalizing st with
  | nil => exact ht
  | cons op ops ih =>
    exact ih (stepM s1 s2 st op) (cLook_step1 s1 s2 st op n t ht)

/-- One step preserves the two-document invariant. -/
theorem Inv_step (s1 s2 : Store) (st : MState) (op : MOp)
    (h : Inv s1 s2 st) : Inv s1 s2 (stepM s1 s2 st op) := by
  obtain ⟨h1, h2, h3⟩ := h
  cases op with
  | mat1 x =>
    cases x with
    | none => exact ⟨h1, h2, h3⟩
    | some m =>
      show Inv s1 s2 ⟨(matDoc s1 1 st.counter st.cache1 (some m)).2.1,
        (matDoc s1 1 st.counter st.cache1 (some m)).2.2, st.cache2⟩
      simp only [matDoc]
      by_cases hel : (s1 m).ntype ≠ NType.elementN
      · rw [if_pos hel]; exact ⟨h1, h2, h3⟩
      · rw [if_neg hel]
        cases hm : cLook st.cache1 m with
        | some u => exact ⟨h1, h2, h3⟩
        | none =>
          refine ⟨?_, ?_, ?_⟩
          · intro e he
            rcases List.mem_cons.mp he with hh | hh
            · rw [hh]
              exact ⟨Nat.lt_succ_self _, rfl, rfl, not_not.mp hel⟩
            · rcases h1 e hh with ⟨ha, hb, hc, hd⟩
              exact ⟨Nat.lt_succ_of_lt ha, hb, hc, hd⟩
          · intro e he
            rcases h2 e he with ⟨ha, hb, hc, hd⟩
            exact ⟨Nat.lt_succ_of_lt ha, hb, hc, hd⟩
          · intro e1 he1 e2 he2
            rcases List.mem_cons.mp he1 with hh | hh
            · rw [hh]
              intro hcontra
              exact absurd (hcontra ▸ (h2 e2 he2).1) (Nat.lt_irrefl _)
            · exact h3 e1 hh e2 he2
  | mat2 x =>
    cases x with
    | none => exact ⟨h1, h2, h3⟩
    | some m =>
      show Inv s1 s2 ⟨(matDoc s2 2 st.counter st.cache2 (some m)).2.1,
        st.cache1, (matDoc s2 2 st.counter st.cache2 (some m)).2.2⟩
      simp only [matDoc]
      by_cases hel : (s2 m).ntype ≠ NType.elementN
      · rw [if_pos hel]; exact ⟨h1, h2, h3⟩
      · rw [if_neg hel]
        cases hm : cLook st.cache2 m with
        | some u => exact ⟨h1, h2, h3⟩
        | none =>
          refine ⟨?_, ?_, ?_⟩
          · intro e he
            rcases h1 e he with ⟨ha, hb, hc, hd⟩
            exact ⟨Nat.lt_succ_of_lt ha, hb, hc, hd⟩
          · intro e he
            rcases List.mem_cons.mp he with hh | hh
            · rw [hh]
              exact ⟨Nat.lt_succ_self _, rfl, rfl, not_not.mp hel⟩
            · rcases h2 e hh with ⟨ha, hb, hc, hd⟩
              exact ⟨Nat.lt_succ_of_lt ha, hb, hc, hd⟩
          · intro e1 he1 e2 he2
            rcases List.mem_cons.mp he2 with hh | hh
            · rw [hh]
              intro hcontra
              exact absurd (hcontra ▸ (h1 e1 he1).1) (Nat.lt_irrefl _)
            · exact h3 e1 he1 e2 hh

theorem Inv_run (s1 s2 : Store) (st : MState) (ops : List MOp)
    (h : Inv s1 s2 st) : Inv s1 s2 (runM s1 s2 st ops) := by
  induction ops generalizing st with
  | nil => exact h
  | cons op ops ih => exact ih (stepM s1 s2 st op) (Inv_step s1 s2 st op h)

/-- C1: in the cached `Document` version, once a handle for a node exists in a
document's cache, every later materialisation of that node — through any
sequence of navigation or search operations on either document — returns the
identical handle with no allocation and no state change; and a handle of the
other, separately parsed document (even one with equal name and attributes)
is never the same object: its allocation pointer differs. -/
theorem claim_C1_handle_identity (s1 s2 : Store) (st : MState) (n : Nat) (t : DTag)
    (hInv : Inv s1 s2 st) (ht : cLook st.cache1 n = some t) :
    ∀ ops : List MOp,
      matDoc s1 1 (runM s1 s2 st ops).counter (runM s1 s2 st ops).cache1 (some n) =
        (some t, (runM s1 s2 st ops).counter, (runM s1 s2 st ops).cache1) ∧
      (∀ n2 t2, cLook (runM s1 s2 st ops).cache2 n2 = some t2 →
        t2.ptr ≠ t.ptr ∧ t2 ≠ t) := by
  intro ops
  have hInv2 := Inv_run s1 s2 st ops hInv
  have ht2 := cLook_run1 s1 s2 st ops n t ht
  have hel : (s1 n).ntype = NType.elementN := (hInv.1 _ (cLook_mem ht)).2.2.2
  constructor
  · exact matDoc_cached s1 1 _ _ n t ht2 hel
  · intro n2 u hu
    have hptr := hInv2.2.2 _ (cLook_mem ht2) _ (cLook_mem hu)
    refine ⟨fun h => hptr h.symm, fun h => hptr (by rw [h])⟩

/-- Witness handle for C1: materialising node 0 of document 1. -/
def c1t : DTag := ⟨0, "div", [], 0, 1⟩

/-- Witness state for C1: after document 1 materialised its root. -/
def c1st : MState := stepM c5store c5store ⟨0, [], []⟩ (MOp.mat1 (some 0))

/-- Witness operation sequence for C1: document 2 (parsed from identical
markup) materialises its own node 0, then document 1 materialises node 2. -/
def c1ops : List MOp := [MOp.mat2 (some 0), MOp.mat1 (some 2)]

theorem claim_C1_handle_identity_witness :
    matDoc c5store 1 (runM c5store c5store c1st c1ops).counter
        (runM c5store c5store c1st c1ops).cache1 (some 0) =
      (some c1t, (runM c5store c5store c1st c1ops).counter,
        (runM c5store c5store c1st c1ops).cache1) ∧
    (∀ n2 t2, cLook (runM c5store c5store c1st c1ops).cache2 n2 = some t2 →
      t2.ptr ≠ c1t.ptr ∧ t2 ≠ c1t) := by
  exact claim_C1_handle_identity c5store c5store c1st 0 c1t
    (by simp only [Inv]; decide) (by rfl) c1ops

/-- `newTag` of the plain `tag.go` version (lines 250-261) on an optional
node: nil gives nil, and any other node — whatever its kind — is wrapped. -/
def newTagP (s : Store) (x : Option Nat) : Option (Tag Nat) :=
  match x with
  | none => none
  | some n => some ⟨(s n).data, goAttrs (s n).attr, n⟩

/-- `Tag.Parent` of `tag.go`: `newTag(tag.node.Parent)`, one step up. -/
def Tag.ParentS (s : Store) (t : Tag Nat) : Option (Tag Nat) :=
  newTagP s ((s t.node).parent)

/-- `Tag.FirstChild` of `tag.go`: `newTag(tag.node.FirstChild)`, one step
down. -/
def Tag.FirstChildS (s : Store) (t : Tag Nat) : Option (Tag Nat) :=
  newTagP s ((s t.node).firstChild)

/-- `Tag.Parent` composed with the cached `Document.newTag`:
`doc.newTag(tag.node.Parent)`. -/
def Tag.ParentD (s : Store) (di counter : Nat) (cache : List (Nat × DTag))
    (t : DTag) : Option DTag × Nat × List (Nat × DTag) :=
  matDoc s di counter cache ((s t.node).parent)

/-- `Tag.FirstChild` composed with the cached `Document.newTag`:
`doc.newTag(tag.node.FirstChild)`. -/
def Tag.FirstChildD (s : Store) (di counter : Nat) (cache : List (Nat × DTag))
    (t : DTag) : Option DTag × Nat × List (Nat × DTag) :=
  matDoc s di counter cache ((s t.node).firstChild)

theorem matDoc_fst_nonelement (s : Store) (di counter : Nat)
    (cache : List (Nat × DTag)) (n : Nat) (hel : (s n).ntype ≠ NType.elementN) :
    (matDoc s di counter cache (some n)).1 = none := by
  simp [matDoc, hel]

theorem matDoc_fst_element (s : Store) (di counter : Nat)
    (cache : List (Nat × DTag)) (n : Nat) (hel : (s n).ntype = NType.elementN)
    (hc : ∀ e ∈ cache, e.2.node = e.1) :
    ∃ r, (matDoc s di counter cache (some n)).1 = some r ∧ r.node = n := by
  simp only [matDoc]
  rw [if_neg (by simp [hel])]
  cases h : cLook cache n with
  | some u =>
    refine ⟨u, rfl, ?_⟩
    exact hc _ (cLook_mem h)
  | none => exact ⟨_, rfl, rfl⟩

theorem matDoc_fst_some_element (s : Store) (di counter : Nat)
    (cache : List (Nat × DTag)) (x : Option Nat) (r : DTag)
    (hc : ∀ e ∈ cache, e.2.node = e.1 ∧ (s e.1).ntype = NType.elementN)
    (h : (matDoc s di counter cache x).1 = some r) :
    (s r.node).ntype = NType.elementN := by
  cases x with
  | none => exact absurd h (by simp [matDoc])
  | some n =>
    by_cases hel : (s n).ntype = NType.elementN
    · simp only [matDoc] at h
      rw [if_neg (by simp [hel])] at h
      cases hl : cLook cache n with
      | some u =>
        rw [hl] at h
        have hu : u = r := by simpa using h
        rcases hc _ (cLook_mem hl) with ⟨h1, h2⟩
        rw [← hu, h1]
        exact h2
      | none =>
        rw [hl] at h
        have : r.node = n := by
          have hr : (⟨counter, (s n).data, goAttrs (s n).attr, n, di⟩ : DTag) = r := by
            simpa using h
          rw [← hr]
        rw [this]
        exact hel
    · rw [matDoc_fst_nonelement s di counter cache n hel] at h
      exact absurd h (by simp)

/-- C4 counterexample: in `<div>hello<span/></div>` the `div` (node 0) has an
element child — the `span` (node 2, parent 0) — but its literal first child is
the text node 1; the cached `FirstChild` returns absent instead of skipping
to the `span`, and the plain `tag.go` `FirstChild` returns a handle of the
text node itself. Both contradict "returns h's first element-kind child,
transparently skipping non-element nodes". -/
def c4store : Store := fun j =>
  if j = 0 then
    { ntype := NType.elementN, data := "div", attr := [],
      firstChild := some 1, lastChild := some 2 }
  else if j = 1 then
    { ntype := NType.textN, data := "hello", attr := [],
      parent := some 0, nextSibling := some 2 }
  else if j = 2 then
    { ntype := NType.elementN, data := "span", attr := [],
      parent := some 0, prevSibling := some 1 }
  else {}

theorem claim_C4_counterexample :
    (c4store 0).firstChild = some 1 ∧ (c4store 1).ntype = NType.textN ∧
    (c4store 1).nextSibling = some 2 ∧ (c4store 2).parent = some 0 ∧
    (c4store 2).ntype = NType.elementN ∧
    (Tag.FirstChildD c4store 1 0 [] ⟨3, "div", [], 0, 1⟩).1 = none ∧
    Tag.FirstChildS c4store ⟨"div", [], 0⟩ = some ⟨"hello", [], 1⟩ := by
  refine ⟨rfl, rfl, rfl, rfl, rfl, rfl, rfl⟩

/-- C4 amended: both navigation operations take exactly one pointer step and
never skip. In the cached version the single neighbour is materialised only
when it is an element (absent when there is no neighbour — in particular at
the root — or when the neighbour is a non-element node, even if an element
lies beyond it), so results are always element handles of exactly the
neighbour node; in the plain `tag.go` version the single neighbour is wrapped
whatever its kind. -/
theorem claim_C4_nav_one_step (s : Store) (di counter : Nat)
    (cache : List (Nat × DTag)) (t : DTag)
    (hc : ∀ e ∈ cache, e.2.node = e.1 ∧ (s e.1).ntype = NType.elementN) :
    (((s t.node).parent = none → (Tag.ParentD s di counter cache t).1 = none) ∧
     (∀ p, (s t.node).parent = some p → (s p).ntype ≠ NType.elementN →
       (Tag.ParentD s di counter cache t).1 = none) ∧
     (∀ p, (s t.node).parent = some p → (s p).ntype = NType.elementN →
       ∃ r, (Tag.ParentD s di counter cache t).1 = some r ∧ r.node = p) ∧
     (∀ r, (Tag.ParentD s di counter cache t).1 = some r →
       (s r.node).ntype = NType.elementN)) ∧
    (((s t.node).firstChild = none →
       (Tag.FirstChildD s di counter cache t).1 = none) ∧
     (∀ p, (s t.node).firstChild = some p → (s p).ntype ≠ NType.elementN →
       (Tag.FirstChildD s di counter cache t).1 = none) ∧
     (∀ p, (s t.node).firstChild = some p → (s p).ntype = NType.elementN →
       ∃ r, (Tag.FirstChildD s di counter cache t).1 = some r ∧ r.node = p) ∧
     (∀ r, (Tag.FirstChildD s di counter cache t).1 = some r →
       (s r.node).ntype = NType.elementN)) ∧
    (∀ u : Tag Nat,
      ((s u.node).parent = none → Tag.ParentS s u = none) ∧
      (∀ p, (s u.node).parent = some p →
        Tag.ParentS s u = some ⟨(s p).data, goAttrs (s p).attr, p⟩) ∧
      ((s u.node).firstChild = none → Tag.FirstChildS s u = none) ∧
      (∀ p, (s u.node).firstChild = some p →
        Tag.FirstChildS s u = some ⟨(s p).data, goAttrs (s p).attr, p⟩)) := by
  refine ⟨⟨?_, ?_, ?_, ?_⟩, ⟨?_, ?_, ?_, ?_⟩, ?_⟩
  · intro h; simp [Tag.ParentD, h, matDoc]
  · intro p h hel
    rw [Tag.ParentD, h]
    exact matDoc_fst_nonelement s di counter cache p hel
  · intro p h hel
    rw [Tag.ParentD, h]
    exact matDoc_fst_element s di counter cache p hel (fun e he => (hc e he).1)
  · intro r h
    rw [Tag.ParentD] at h
    exact matDoc_fst_some_element s di counter cache _ r hc h
  · intro h; simp [Tag.FirstChildD, h, matDoc]
  · intro p h hel
    rw [Tag.FirstChildD, h]
    exact matDoc_fst_nonelement s di counter cache p hel
  · intro p h hel
    rw [Tag.FirstChildD, h]
    exact matDoc_fst_element s di counter cache p hel (fun e he => (hc e he).1)
  · intro r h
    rw [Tag.FirstChildD] at h
    exact matDoc_fst_some_element s di counter cache _ r hc h
  · intro u
    refine ⟨?_, ?_, ?_, ?_⟩
    · intro h; simp [Tag.ParentS, h, newTagP]
    · intro p h; simp [Tag.ParentS, h, newTagP]
    · intro h; simp [Tag.FirstChildS, h, newTagP]
    · intro p h; simp [Tag.FirstChildS, h, newTagP]

theorem claim_C4_nav_one_step_witness :
    (∃ r, (Tag.ParentD c4store 1 0 [] ⟨9, "span", [], 2, 1⟩).1 = some r ∧
      r.node = 0) ∧
    (Tag.FirstChildD c4store 1 0 [] ⟨3, "div", [], 0, 1⟩).1 = none := by
  have h := claim_C4_nav_one_step c4store 1 0 [] ⟨9, "span", [], 2, 1⟩ (by simp)
  refine ⟨h.1.2.2.1 0 rfl rfl, ?_⟩
  have h2 := claim_C4_nav_one_step c4store 1 0 [] ⟨3, "div", [], 0, 1⟩ (by simp)
  exact h2.2.1.2.1 1 rfl (by decide)

end Gosoup
